import Mathlib

/-!
# Verification of the Aleo record encoder

Shallow embedding of `src/rust/record/src/record_encoder.rs`: the
`RecordSerializerScheme` implementation for `RecordEncoder` (`serialize`,
`deserialize`) and the `From<Record> for DecodedRecord` conversion.

Machine bytes are modelled as `Nat` values below 256; bit strings as
`List Bool` in least-significant-first order, matching
`snarkvm_utilities::bytes_to_bits` / `bits_to_bytes`.  The cryptographic
bit widths (`DATA_ELEMENT_BITSIZE`, `PAYLOAD_ELEMENT_BITSIZE`,
`OUTER_FIELD_BITSIZE`, ...) are parameters of the embedding, constrained
by the bit-width invariants the specification states.
-/

/-- Little-endian bit decomposition: `natToBits k n` is the `k` low bits of
`n`, least significant first. -/
def natToBits : Nat → Nat → List Bool
  | 0, _ => []
  | k + 1, n => decide (n % 2 = 1) :: natToBits k (n / 2)

/-- Value of a little-endian bit string. -/
def bitsToNat : List Bool → Nat
  | [] => 0
  | b :: bs => (if b then 1 else 0) + 2 * bitsToNat bs

/-- `snarkvm_utilities::bytes_to_bits`: each byte contributes its 8 bits,
least significant first. -/
def bytes_to_bits (bytes : List Nat) : List Bool :=
  (bytes.map (natToBits 8)).flatten

/-- Fuel-driven 8-bit chunking used to define `bits_to_bytes` by structural
recursion (the fuel is always at least the list length). -/
def chunks8 : Nat → List Bool → List Nat
  | 0, _ => []
  | _ + 1, [] => []
  | fuel + 1, b :: bs => bitsToNat ((b :: bs).take 8) :: chunks8 fuel ((b :: bs).drop 8)

/-- `snarkvm_utilities::bits_to_bytes`: pack bits into bytes, 8 at a time,
least significant first; the final partial byte is zero-padded high. -/
def bits_to_bytes (bits : List Bool) : List Nat :=
  chunks8 bits.length bits

/-- Fixed-width little-endian byte serialization of an integer (the
`to_bytes![...]` form used for field elements and the u64 value). -/
def natToBytes (k n : Nat) : List Nat :=
  bits_to_bytes (natToBits (8 * k) n)

/-- Value of a little-endian byte string (the `FromBytes::read` view). -/
def bytesToNat (bytes : List Nat) : Nat :=
  bitsToNat (bytes_to_bits bytes)

/-! ## The data model and the group-encoding primitive

The group-encoding primitive is an external collaborator of the codec
(spec §6): `encode_to_group` is deterministic and injective, and
`decode_from_group` is its exact left inverse.  The embedding carries the
encoded byte string inside the element and keeps the primitive's sign bit
and affine x-coordinate as opaque functions (`sgn`, `xCoordFn`) of the
input, along with the `from_random_bytes` success predicate (`onCurve`). -/

/-- A group element.  For an element produced by `encode_to_group`,
`encBytes` is the byte string the primitive encoded (recovered by
`decode_from_group`); `xCoord` is the byte serialization of the affine
x-coordinate.  `into_projective`/`into_affine` are mutually inverse
representation changes and are modelled as the identity. -/
structure GElem where
  encBytes : List Nat
  xCoord : List Nat
deriving DecidableEq

/-- The bit-width constants of `RecordSerializerScheme` together with the
byte widths and moduli of the three fields, and the opaque functions of
the group-encoding primitive. -/
structure Params where
  INNER_FIELD_BITSIZE : Nat
  OUTER_FIELD_BITSIZE : Nat
  SCALAR_FIELD_BITSIZE : Nat
  DATA_ELEMENT_BITSIZE : Nat
  PAYLOAD_ELEMENT_BITSIZE : Nat
  innerBytes : Nat
  outerBytes : Nat
  scalarBytes : Nat
  payloadLen : Nat
  innerMod : Nat
  outerMod : Nat
  scalarMod : Nat
  sgn : List Nat → Bool
  xCoordFn : List Nat → List Nat
  onCurve : List Nat → Bool

/-- `snarkvm_dpc::encode_to_group`, through its contract: deterministic,
`decode_from_group` its left inverse; the sign bit and the coordinate of
the produced element are opaque functions of the input bytes.  (Per the
contract the primitive is total on the codec's inputs.) -/
def encode_to_group (pp : Params) (bytes : List Nat) : GElem × Bool :=
  (⟨bytes, pp.xCoordFn bytes⟩, pp.sgn bytes)

/-- `snarkvm_dpc::decode_from_group`: exact left inverse of
`encode_to_group` for elements the latter produced. -/
def decode_from_group (g : GElem) (fq_high : Bool) : List Nat :=
  g.encBytes

/-- `AffineCurve::from_random_bytes`: read an x-coordinate from the bytes
and return a point with that coordinate, or `none` when the coordinate is
not on the curve (`pp.onCurve` is the opaque success predicate). -/
def from_random_bytes (pp : Params) (bytes : List Nat) : Option GElem :=
  if pp.onCurve bytes then some ⟨bytes, bytes⟩ else none

/-- The record fields read by `serialize` (`crate::Record`).  Field
elements are carried as their canonical integer values; the program
identifiers and the payload as raw byte strings, as in the Rust type. -/
structure Record where
  payload : List Nat
  value : Nat
  birth_program_id : List Nat
  death_program_id : List Nat
  serial_number_nonce : Nat
  commitment_randomness : Nat
deriving DecidableEq

/-- `DecodedRecord` (lines 41-50): the decoded format of the record. -/
structure DecodedRecord where
  payload : List Nat
  value : Nat
  birth_program_id : List Nat
  death_program_id : List Nat
  serial_number_nonce : Nat
  commitment_randomness : Nat
deriving DecidableEq

/-- `impl From<Record> for DecodedRecord` (lines 345-356): verbatim field
copy.  (Named `ofRecord` because `from` is a Lean keyword.) -/
def DecodedRecord.ofRecord (record : Record) : DecodedRecord :=
  { payload := record.payload
    value := record.value
    birth_program_id := record.birth_program_id
    death_program_id := record.death_program_id
    serial_number_nonce := record.serial_number_nonce
    commitment_randomness := record.commitment_randomness }

/-- `Self::OuterField::read(...)?.into_repr()`: consume `outerBytes`
little-endian bytes (failing on a shorter input) and check the value is a
canonical field element, i.e. below the modulus. -/
def readOuterField (pp : Params) (bytes : List Nat) : Option Nat :=
  if pp.outerBytes ≤ bytes.length ∧ bytesToNat (bytes.take pp.outerBytes) < pp.outerMod then
    some (bytesToNat (bytes.take pp.outerBytes))
  else none

/-- `<SerialNumberNonceCRH as CRH>::Output::read`: the nonce is an inner
field element. -/
def readInnerField (pp : Params) (bytes : List Nat) : Option Nat :=
  if pp.innerBytes ≤ bytes.length ∧ bytesToNat (bytes.take pp.innerBytes) < pp.innerMod then
    some (bytesToNat (bytes.take pp.innerBytes))
  else none

/-- `<RecordCommitment as CommitmentScheme>::Randomness::read`: the
commitment randomness is a scalar field element. -/
def readScalarField (pp : Params) (bytes : List Nat) : Option Nat :=
  if pp.scalarBytes ≤ bytes.length ∧ bytesToNat (bytes.take pp.scalarBytes) < pp.scalarMod then
    some (bytesToNat (bytes.take pp.scalarBytes))
  else none

/-- `Payload::read`: a payload has the fixed byte size `payloadLen`; extra
bytes in the stream are ignored, a shorter stream is an error. -/
def Payload.read (pp : Params) (bytes : List Nat) : Option (List Nat) :=
  if pp.payloadLen ≤ bytes.length then some (bytes.take pp.payloadLen) else none

/-- Result of `serialize`: `ok` carries the element vector and
`final_sign_high`; `err` models a returned `DPCError` (a failed
`OuterField::read`); `panicked` models a Rust panic (the `.unwrap()` on
`from_random_bytes`, or a failed `assert_eq!`). -/
inductive SOut where
  | ok (elements : List GElem) (final_sign_high : Bool)
  | err
  | panicked
deriving DecidableEq

/-- The element sequence of a successful `serialize` result. -/
def SOut.elementList : SOut → List GElem
  | .ok es _ => es
  | _ => []

/-- The payload bit loop of `serialize` (lines 174-188): push each payload
bit; after bit `i`, when `i > 0` and `(i + 1) % PAYLOAD_ELEMENT_BITSIZE = 0`,
push the guard bit `true`, byte-encode the accumulated chunk into one
element, record its sign bit, and clear the accumulator. -/
def payloadLoop (pp : Params) :
    List Bool → Nat → List Bool → List GElem → List Bool → List GElem × List Bool × List Bool
  | [], _, acc, elems, highs => (elems, highs, acc)
  | bit :: rest, i, acc, elems, highs =>
    let acc1 := acc ++ [bit]
    if 0 < i ∧ (i + 1) % pp.PAYLOAD_ELEMENT_BITSIZE = 0 then
      let es := encode_to_group pp (bits_to_bytes (acc1 ++ [true]))
      payloadLoop pp rest (i + 1) [] (elems ++ [es.1]) (highs ++ [es.2])
    else
      payloadLoop pp rest (i + 1) acc1 elems highs

/-- `RecordEncoder::serialize` (lines 62-241).  The trivially true
`assert_eq!` calls at lines 103-104, 120-121, 167-168, 213-216 and
228-231 restate lengths of vectors built by straight-line pushes and are
not modelled; the nontrivial pair at lines 190-191 (element count after
the payload loop) is modelled as a conditional panic. -/
def serialize (pp : Params) (record : Record) : SOut :=
  let payload_bytes := record.payload
  let payload_bits_count := payload_bytes.length * 8
  let payload_bits := bytes_to_bits payload_bytes
  let num_payload_elements := payload_bits_count / pp.PAYLOAD_ELEMENT_BITSIZE
  match from_random_bytes pp (natToBytes pp.innerBytes record.serial_number_nonce) with
  | none => .panicked
  | some serial_number_nonce_encoded =>
    let data_elements : List GElem := [serial_number_nonce_encoded]
    let data_high_bits : List Bool := [false]
    let enc1 := encode_to_group pp (natToBytes pp.scalarBytes record.commitment_randomness)
    let data_elements := data_elements ++ [enc1.1]
    let data_high_bits := data_high_bits ++ [enc1.2]
    match readOuterField pp record.birth_program_id,
        readOuterField pp record.death_program_id with
    | some birth_program_id_biginteger, some death_program_id_biginteger =>
      let birth_program_id_bits :=
        (List.range pp.DATA_ELEMENT_BITSIZE).map birth_program_id_biginteger.testBit
      let death_program_id_bits :=
        (List.range pp.DATA_ELEMENT_BITSIZE).map death_program_id_biginteger.testBit
      let birth_program_id_remainder_bits :=
        (List.range (pp.OUTER_FIELD_BITSIZE - pp.DATA_ELEMENT_BITSIZE)).map
          (fun i => birth_program_id_biginteger.testBit (pp.DATA_ELEMENT_BITSIZE + i))
      let death_program_id_remainder_bits :=
        (List.range (pp.OUTER_FIELD_BITSIZE - pp.DATA_ELEMENT_BITSIZE)).map
          (fun i => death_program_id_biginteger.testBit (pp.DATA_ELEMENT_BITSIZE + i))
      let remainder_bits := birth_program_id_remainder_bits ++ death_program_id_remainder_bits
      let enc2 := encode_to_group pp (bits_to_bytes birth_program_id_bits)
      let data_elements := data_elements ++ [enc2.1]
      let data_high_bits := data_high_bits ++ [enc2.2]
      let enc3 := encode_to_group pp (bits_to_bytes death_program_id_bits)
      let data_elements := data_elements ++ [enc3.1]
      let data_high_bits := data_high_bits ++ [enc3.2]
      let enc4 := encode_to_group pp (bits_to_bytes remainder_bits)
      let data_elements := data_elements ++ [enc4.1]
      let data_high_bits := data_high_bits ++ [enc4.2]
      let loopOut := payloadLoop pp payload_bits 0 [] data_elements data_high_bits
      let data_elements := loopOut.1
      let data_high_bits := loopOut.2.1
      let payload_field_bits := loopOut.2.2
      if data_elements.length = 5 + num_payload_elements ∧
          data_high_bits.length = 5 + num_payload_elements then
        let value_does_not_fit :=
          decide (pp.PAYLOAD_ELEMENT_BITSIZE <
            payload_field_bits.length + data_high_bits.length + 64)
        let flush := encode_to_group pp (bits_to_bytes (payload_field_bits ++ [true]))
        let data_elements :=
          if value_does_not_fit then data_elements ++ [flush.1] else data_elements
        let data_high_bits :=
          if value_does_not_fit then data_high_bits ++ [flush.2] else data_high_bits
        let payload_field_bits := if value_does_not_fit then [] else payload_field_bits
        let value_bits := bytes_to_bits (natToBytes 8 record.value)
        let final_element := [true] ++ data_high_bits ++ value_bits ++ payload_field_bits
        let encF := encode_to_group pp (bits_to_bytes final_element)
        .ok (data_elements ++ [encF.1]) encF.2
      else .panicked
    | _, _ => .err

/-- Error kinds of `deserialize`.  `structural` covers the Rust
index/slice panics on a too-short sequence (spec §7 StructuralError);
`format` covers failing `FromBytes::read` calls (FormatMismatch).  In the
embedding `decode_from_group` is total, so PrimitiveFailure does not
arise. -/
inductive DErr where
  | structural
  | format
deriving DecidableEq

/-- `RecordEncoder::deserialize` (lines 243-342).  Every Rust indexing or
slicing panic on a too-short sequence is modelled as a `structural` error
at the same program point; failing `FromBytes::read` calls are `format`
errors.  The `zip_eq` at line 325 joins two slices of provably equal
length (`L - 6` each) and is modelled as `zip`. -/
def deserialize (pp : Params) (serialized_record : List GElem) (final_sign_high : Bool) :
    Except DErr DecodedRecord :=
  let remainder_size := pp.OUTER_FIELD_BITSIZE - pp.DATA_ELEMENT_BITSIZE
  let L := serialized_record.length
  if L = 0 then .error .structural else
  let final_element := serialized_record.getD (L - 1) ⟨[], []⟩
  let final_element_bytes := decode_from_group final_element final_sign_high
  let final_element_bits := bytes_to_bits final_element_bytes
  if final_element_bits.length < L then .error .structural else
  let fq_high_bits := (final_element_bits.drop 1).take (L - 1)
  if L < 2 then .error .structural else
  match readInnerField pp (serialized_record.getD 0 ⟨[], []⟩).xCoord with
  | none => .error .format
  | some serial_number_nonce =>
    if L < 3 then .error .structural else
    let commitment_randomness_bytes :=
      decode_from_group (serialized_record.getD 1 ⟨[], []⟩) (fq_high_bits.getD 1 false)
    let commitment_randomness_bits :=
      (bytes_to_bits commitment_randomness_bytes).take pp.DATA_ELEMENT_BITSIZE
    match readScalarField pp (bits_to_bytes commitment_randomness_bits) with
    | none => .error .format
    | some commitment_randomness =>
      if L < 4 then .error .structural else
      let birth_program_id_bytes :=
        decode_from_group (serialized_record.getD 2 ⟨[], []⟩) (fq_high_bits.getD 2 false)
      if L < 5 then .error .structural else
      let death_program_id_bytes :=
        decode_from_group (serialized_record.getD 3 ⟨[], []⟩) (fq_high_bits.getD 3 false)
      if L < 6 then .error .structural else
      let program_id_remainder_bytes :=
        decode_from_group (serialized_record.getD 4 ⟨[], []⟩) (fq_high_bits.getD 4 false)
      let birth_program_id_bits :=
        (bytes_to_bits birth_program_id_bytes).take pp.DATA_ELEMENT_BITSIZE ++
          (bytes_to_bits program_id_remainder_bytes).take remainder_size
      let death_program_id_bits :=
        (bytes_to_bits death_program_id_bytes).take pp.DATA_ELEMENT_BITSIZE ++
          ((bytes_to_bits program_id_remainder_bytes).drop remainder_size).take remainder_size
      let birth_program_id := bits_to_bytes birth_program_id_bits
      let death_program_id := bits_to_bytes death_program_id_bits
      let value_start := L
      let value_end := value_start + 64
      if final_element_bits.length < value_end then .error .structural else
      let value := bytesToNat (bits_to_bytes ((final_element_bits.drop value_start).take 64))
      let payload_elements := (serialized_record.drop 5).take (L - 1 - 5)
      let payload_highs := fq_high_bits.drop 5
      let payload_bits :=
        ((payload_elements.zip payload_highs).map
            (fun eh =>
              (bytes_to_bits (decode_from_group eh.1 eh.2)).take
                pp.PAYLOAD_ELEMENT_BITSIZE)).flatten
          ++ final_element_bits.drop value_end
      match Payload.read pp (bits_to_bytes payload_bits) with
      | none => .error .format
      | some payload =>
        .ok { payload := payload
              value := value
              birth_program_id := birth_program_id
              death_program_id := death_program_id
              serial_number_nonce := serial_number_nonce
              commitment_randomness := commitment_randomness }

/-! ## Chunk decomposition of the payload bit stream -/

/-- Fuel-driven chunking: split a bit string into full `P`-bit chunks and
a final remainder shorter than `P` (the fuel is at least the length). -/
def chunksOfFuel (P : Nat) : Nat → List Bool → List (List Bool) × List Bool
  | 0, l => ([], l)
  | fuel + 1, l =>
    if P ≤ l.length ∧ 1 ≤ P then
      let r := chunksOfFuel P fuel (l.drop P)
      (l.take P :: r.1, r.2)
    else ([], l)

/-- The full `P`-bit chunks of `l`, in order. -/
def chunksOf (P : Nat) (l : List Bool) : List (List Bool) :=
  (chunksOfFuel P l.length l).1

/-- The remainder of `l` after all full `P`-bit chunks. -/
def chunkRest (P : Nat) (l : List Bool) : List Bool :=
  (chunksOfFuel P l.length l).2

/-! ## Closed forms of the serializer output

Every definition below names a subexpression of `serialize`; the lemma
`serialize_eq_ok` proves that, on an accepted record, `serialize` returns
exactly these. -/

/-- `to_bytes![record.serial_number_nonce()]`. -/
def nonceBytes (pp : Params) (r : Record) : List Nat :=
  natToBytes pp.innerBytes r.serial_number_nonce

/-- `to_bytes![record.commitment_randomness()]`. -/
def randomnessBytes (pp : Params) (r : Record) : List Nat :=
  natToBytes pp.scalarBytes r.commitment_randomness

/-- Canonical value of the birth program identifier
(`OuterField::read(...)?.into_repr()`). -/
def birthValue (pp : Params) (r : Record) : Nat :=
  bytesToNat (r.birth_program_id.take pp.outerBytes)

/-- Canonical value of the death program identifier. -/
def deathValue (pp : Params) (r : Record) : Nat :=
  bytesToNat (r.death_program_id.take pp.outerBytes)

/-- Bits `0 ..< DATA_ELEMENT_BITSIZE` of the birth identifier. -/
def birthLowBits (pp : Params) (r : Record) : List Bool :=
  (List.range pp.DATA_ELEMENT_BITSIZE).map (birthValue pp r).testBit

/-- Bits `0 ..< DATA_ELEMENT_BITSIZE` of the death identifier. -/
def deathLowBits (pp : Params) (r : Record) : List Bool :=
  (List.range pp.DATA_ELEMENT_BITSIZE).map (deathValue pp r).testBit

/-- The concatenated high-bit remainders of the two identifiers
(bits `DATA_ELEMENT_BITSIZE ..< OUTER_FIELD_BITSIZE` of each). -/
def remainderBits (pp : Params) (r : Record) : List Bool :=
  (List.range (pp.OUTER_FIELD_BITSIZE - pp.DATA_ELEMENT_BITSIZE)).map
    (fun i => (birthValue pp r).testBit (pp.DATA_ELEMENT_BITSIZE + i)) ++
  (List.range (pp.OUTER_FIELD_BITSIZE - pp.DATA_ELEMENT_BITSIZE)).map
    (fun i => (deathValue pp r).testBit (pp.DATA_ELEMENT_BITSIZE + i))

/-- The payload bit stream `bytes_to_bits(&to_bytes![payload])`. -/
def payloadBits (r : Record) : List Bool :=
  bytes_to_bits r.payload

/-- The payload element produced from one full chunk: guard bit appended,
then byte-encoded. -/
def chunkElem (pp : Params) (c : List Bool) : GElem :=
  (encode_to_group pp (bits_to_bytes (c ++ [true]))).1

/-- The recorded sign bit of the element produced from one chunk. -/
def chunkHigh (pp : Params) (c : List Bool) : Bool :=
  (encode_to_group pp (bits_to_bytes (c ++ [true]))).2

/-- The full payload chunks processed by the loop. -/
def payloadChunks (pp : Params) (r : Record) : List (List Bool) :=
  chunksOf pp.PAYLOAD_ELEMENT_BITSIZE (payloadBits r)

/-- The leftover payload bits remaining in the accumulator after the loop. -/
def leftoverBits (pp : Params) (r : Record) : List Bool :=
  chunkRest pp.PAYLOAD_ELEMENT_BITSIZE (payloadBits r)

/-- The sign-bit ledger after the payload loop: the five fixed elements'
sign bits (element 0's recorded as `false` since it is never
byte-encoded), then one sign bit per payload chunk, in element order. -/
def loopHighs (pp : Params) (r : Record) : List Bool :=
  [false,
   (encode_to_group pp (randomnessBytes pp r)).2,
   (encode_to_group pp (bits_to_bytes (birthLowBits pp r))).2,
   (encode_to_group pp (bits_to_bytes (deathLowBits pp r))).2,
   (encode_to_group pp (bits_to_bytes (remainderBits pp r))).2] ++
  (payloadChunks pp r).map (chunkHigh pp)

/-- The `value_does_not_fit` condition of `serialize` (lines 196-198) in
closed form: leftover payload bits + sign bits so far + 64 value bits
exceed `PAYLOAD_ELEMENT_BITSIZE`. -/
def valueOverflows (pp : Params) (r : Record) : Bool :=
  decide (pp.PAYLOAD_ELEMENT_BITSIZE <
    (leftoverBits pp r).length + (loopHighs pp r).length + 64)

/-- The extra flushed element holding the leftover payload bits. -/
def flushElem (pp : Params) (r : Record) : GElem :=
  chunkElem pp (leftoverBits pp r)

/-- The sign bit of the flushed element. -/
def flushHigh (pp : Params) (r : Record) : Bool :=
  chunkHigh pp (leftoverBits pp r)

/-- The complete sign-bit ledger embedded into the tail element. -/
def allHighs (pp : Params) (r : Record) : List Bool :=
  (if valueOverflows pp r then loopHighs pp r ++ [flushHigh pp r] else loopHighs pp r)

/-- The leftover payload bits carried in the tail element (empty when the
flush happened). -/
def tailLeftover (pp : Params) (r : Record) : List Bool :=
  (if valueOverflows pp r then [] else leftoverBits pp r)

/-- The bit string encoded into the final (tail) element (line 222):
a guard bit, all recorded sign bits, the 64 value bits, and the pending
leftover payload bits. -/
def tailBits (pp : Params) (r : Record) : List Bool :=
  [true] ++ allHighs pp r ++ bytes_to_bits (natToBytes 8 r.value) ++ tailLeftover pp r

/-- The tail element. -/
def tailElem (pp : Params) (r : Record) : GElem :=
  (encode_to_group pp (bits_to_bytes (tailBits pp r))).1

/-- The auxiliary output: the tail element's own sign bit. -/
def tailHigh (pp : Params) (r : Record) : Bool :=
  (encode_to_group pp (bits_to_bytes (tailBits pp r))).2

/-- The serialized element sequence in closed form. -/
def serializeElems (pp : Params) (r : Record) : List GElem :=
  [⟨nonceBytes pp r, nonceBytes pp r⟩,
   (encode_to_group pp (randomnessBytes pp r)).1,
   (encode_to_group pp (bits_to_bytes (birthLowBits pp r))).1,
   (encode_to_group pp (bits_to_bytes (deathLowBits pp r))).1,
   (encode_to_group pp (bits_to_bytes (remainderBits pp r))).1] ++
  (payloadChunks pp r).map (chunkElem pp) ++
  (if valueOverflows pp r then [flushElem pp r] else []) ++ [tailElem pp r]

/-! ## Configuration and record validity -/

/-- The bit-width invariants of spec §3 together with the coherence facts
of the concrete field instantiation (byte widths matching bit widths,
moduli bounded by their bit sizes, and `PAYLOAD_ELEMENT_BITSIZE ≥ 2`).
In the deployed configuration: INNER = 253, OUTER = 377, SCALAR = 251,
DATA = 252, PAYLOAD = 251, innerBytes = scalarBytes = 32, outerBytes = 48. -/
structure ValidParams (pp : Params) : Prop where
  hPD : pp.PAYLOAD_ELEMENT_BITSIZE + 1 = pp.DATA_ELEMENT_BITSIZE
  hDI : pp.DATA_ELEMENT_BITSIZE + 1 = pp.INNER_FIELD_BITSIZE
  hScalarInner : pp.SCALAR_FIELD_BITSIZE < pp.INNER_FIELD_BITSIZE
  hDO : pp.DATA_ELEMENT_BITSIZE ≤ pp.OUTER_FIELD_BITSIZE
  hRem1 : pp.OUTER_FIELD_BITSIZE - pp.DATA_ELEMENT_BITSIZE ≤ pp.DATA_ELEMENT_BITSIZE
  hRem2 : 2 * (pp.OUTER_FIELD_BITSIZE - pp.DATA_ELEMENT_BITSIZE) ≤ pp.DATA_ELEMENT_BITSIZE
  hP2 : 2 ≤ pp.PAYLOAD_ELEMENT_BITSIZE
  hScalarBytesLow : pp.DATA_ELEMENT_BITSIZE ≤ 8 * pp.scalarBytes
  hScalarBytesHigh : 8 * pp.scalarBytes < pp.DATA_ELEMENT_BITSIZE + 8
  hOuterBytesLow : pp.OUTER_FIELD_BITSIZE ≤ 8 * pp.outerBytes
  hOuterBytesHigh : 8 * pp.outerBytes < pp.OUTER_FIELD_BITSIZE + 8
  hInnerMod : pp.innerMod ≤ 2 ^ (8 * pp.innerBytes)
  hOuterMod : pp.outerMod ≤ 2 ^ pp.OUTER_FIELD_BITSIZE
  hScalarMod : pp.scalarMod ≤ 2 ^ pp.SCALAR_FIELD_BITSIZE

/-- Type-level invariants of the Rust record fields: the payload has the
fixed `Payload` size and holds bytes, the value is a `u64`, and the nonce
and randomness are canonical field elements. -/
structure WFRecord (pp : Params) (r : Record) : Prop where
  payload_length : r.payload.length = pp.payloadLen
  payload_bytes : ∀ b ∈ r.payload, b < 256
  value_lt : r.value < 2 ^ 64
  nonce_lt : r.serial_number_nonce < pp.innerMod
  randomness_lt : r.commitment_randomness < pp.scalarMod

/-- A small concrete configuration satisfying `ValidParams`, used to
evaluate the theorems on explicit inputs. -/
def toyParams : Params :=
  { INNER_FIELD_BITSIZE := 5
    OUTER_FIELD_BITSIZE := 6
    SCALAR_FIELD_BITSIZE := 3
    DATA_ELEMENT_BITSIZE := 4
    PAYLOAD_ELEMENT_BITSIZE := 3
    innerBytes := 1
    outerBytes := 1
    scalarBytes := 1
    payloadLen := 1
    innerMod := 200
    outerMod := 64
    scalarMod := 8
    sgn := fun _ => false
    xCoordFn := fun b => b
    onCurve := fun _ => true }

/-- A concrete record for `toyParams`. -/
def toyRecord : Record :=
  { payload := [0]
    value := 5
    birth_program_id := [7]
    death_program_id := [9]
    serial_number_nonce := 3
    commitment_randomness := 5 }

/-- A configuration with an empty payload and a payload element size large
enough (≥ 69) that the value fits in the tail, as in the deployed
configuration (251). -/
def emptyPayloadParams : Params :=
  { INNER_FIELD_BITSIZE := 71
    OUTER_FIELD_BITSIZE := 105
    SCALAR_FIELD_BITSIZE := 70
    DATA_ELEMENT_BITSIZE := 70
    PAYLOAD_ELEMENT_BITSIZE := 69
    innerBytes := 1
    outerBytes := 14
    scalarBytes := 9
    payloadLen := 0
    innerMod := 2
    outerMod := 2 ^ 105
    scalarMod := 2 ^ 70
    sgn := fun _ => false
    xCoordFn := fun b => b
    onCurve := fun _ => true }

/-- A concrete record with empty payload for `emptyPayloadParams`. -/
def emptyPayloadRecord : Record :=
  { payload := []
    value := 1
    birth_program_id := List.replicate 14 0
    death_program_id := List.replicate 14 0
    serial_number_nonce := 1
    commitment_randomness := 1 }

/-- The five fixed leading elements of the serialized sequence. -/
def fixedElems (pp : Params) (r : Record) : List GElem :=
  [⟨nonceBytes pp r, nonceBytes pp r⟩,
   (encode_to_group pp (randomnessBytes pp r)).1,
   (encode_to_group pp (bits_to_bytes (birthLowBits pp r))).1,
   (encode_to_group pp (bits_to_bytes (deathLowBits pp r))).1,
   (encode_to_group pp (bits_to_bytes (remainderBits pp r))).1]

/-- The toy configuration with no byte string on the curve, so that
`from_random_bytes` always fails. -/
def toyParamsOff : Params :=
  { toyParams with onCurve := fun _ => false }

/-! ## Theorems -/

theorem natToBits_length (k n : Nat) : (natToBits k n).length = k := by
  induction k generalizing n with
  | zero => rfl
  | succ k ih => simp [natToBits, ih]

theorem bitsToNat_lt (l : List Bool) : bitsToNat l < 2 ^ l.length := by
  induction l with
  | nil => simp [bitsToNat]
  | cons b bs ih =>
    simp only [bitsToNat, List.length_cons, pow_succ]
    cases b <;> simp <;> omega

theorem bitsToNat_natToBits (k n : Nat) : bitsToNat (natToBits k n) = n % 2 ^ k := by
  induction k generalizing n with
  | zero => simp [natToBits, bitsToNat, Nat.mod_one]
  | succ k ih =>
    have hmul : n % 2 ^ (k + 1) = n % 2 + 2 * (n / 2 % 2 ^ k) := by
      rw [pow_succ', Nat.mod_mul]
    rw [natToBits, bitsToNat, ih, hmul]
    rcases Nat.mod_two_eq_zero_or_one n with h | h <;> simp [h]

theorem natToBits_zero (k : Nat) : natToBits k 0 = List.replicate k false := by
  induction k with
  | zero => rfl
  | succ k ih => simp [natToBits, ih, List.replicate_succ]

theorem natToBits_bitsToNat (l : List Bool) (k : Nat) (h : l.length ≤ k) :
    natToBits k (bitsToNat l) = l ++ List.replicate (k - l.length) false := by
  induction l generalizing k with
  | nil => simp [bitsToNat, natToBits_zero]
  | cons b bs ih =>
    match k, h with
    | k + 1, h =>
      have hb : (if b then 1 else 0) + 2 * bitsToNat bs = bitsToNat (b :: bs) := rfl
      have h2 : bitsToNat (b :: bs) % 2 = if b then 1 else 0 := by
        rw [← hb]; cases b <;> simp [Nat.add_mul_mod_self_left]
      have h3 : bitsToNat (b :: bs) / 2 = bitsToNat bs := by
        rw [← hb]; cases b <;> simp <;> omega
      rw [natToBits, h2, h3, ih k (by simpa using h)]
      cases b <;> simp [List.length_cons, Nat.succ_sub_succ]

theorem bitsToNat_append (l m : List Bool) :
    bitsToNat (l ++ m) = bitsToNat l + 2 ^ l.length * bitsToNat m := by
  induction l with
  | nil => simp [bitsToNat]
  | cons b bs ih =>
    rw [List.cons_append]
    show (if b then 1 else 0) + 2 * bitsToNat (bs ++ m) = _
    rw [ih]
    show _ = (if b then 1 else 0) + 2 * bitsToNat bs + 2 ^ (bs.length + 1) * bitsToNat m
    ring

theorem bitsToNat_replicate_false (k : Nat) : bitsToNat (List.replicate k false) = 0 := by
  induction k with
  | zero => rfl
  | succ k ih => simp [List.replicate_succ, bitsToNat, ih]

theorem bitsToNat_append_replicate_false (l : List Bool) (p : Nat) :
    bitsToNat (l ++ List.replicate p false) = bitsToNat l := by
  simp [bitsToNat_append, bitsToNat_replicate_false]

theorem natToBits_add (a b n : Nat) :
    natToBits (a + b) n = natToBits a n ++ natToBits b (n / 2 ^ a) := by
  induction a generalizing n with
  | zero => simp [natToBits]
  | succ a ih =>
    have hdiv : n / 2 / 2 ^ a = n / 2 ^ (a + 1) := by
      rw [Nat.div_div_eq_div_mul, ← pow_succ']
    rw [Nat.succ_add, natToBits, natToBits, ih, hdiv, List.cons_append]

theorem natToBits_take (k m n : Nat) (h : k ≤ m) :
    (natToBits m n).take k = natToBits k n := by
  have hm : m = k + (m - k) := by omega
  rw [hm, natToBits_add, List.take_append_eq_append_take, natToBits_length,
    List.take_of_length_le (by rw [natToBits_length]), Nat.sub_self, List.take_zero,
    List.append_nil]

theorem natToBits_testBit (k n : Nat) :
    natToBits k n = (List.range k).map n.testBit := by
  induction k generalizing n with
  | zero => rfl
  | succ k ih =>
    rw [List.range_succ_eq_map, List.map_cons, natToBits, ih (n / 2), List.map_map]
    congr 1
    · rw [Nat.testBit_to_div_mod]; simp
    · apply List.map_congr_left
      intro i _
      simp only [Function.comp_apply, Nat.testBit_to_div_mod, Nat.succ_eq_add_one]
      have hdiv : n / 2 / 2 ^ i = n / 2 ^ (i + 1) := by
        rw [Nat.div_div_eq_div_mul, ← pow_succ']
      rw [hdiv]

theorem bytes_to_bits_nil : bytes_to_bits [] = [] := rfl

theorem bytes_to_bits_cons (b : Nat) (bs : List Nat) :
    bytes_to_bits (b :: bs) = natToBits 8 b ++ bytes_to_bits bs := by
  simp [bytes_to_bits]

theorem bytes_to_bits_append (a b : List Nat) :
    bytes_to_bits (a ++ b) = bytes_to_bits a ++ bytes_to_bits b := by
  simp [bytes_to_bits]

theorem bytes_to_bits_length (bs : List Nat) : (bytes_to_bits bs).length = 8 * bs.length := by
  induction bs with
  | nil => rfl
  | cons b bs ih =>
    rw [bytes_to_bits_cons, List.length_append, natToBits_length, ih, List.length_cons]
    ring

theorem chunks8_congr (f1 f2 : Nat) (l : List Bool) (h1 : l.length ≤ f1) (h2 : l.length ≤ f2) :
    chunks8 f1 l = chunks8 f2 l := by
  cases l with
  | nil => cases f1 <;> cases f2 <;> rfl
  | cons b bs =>
    cases f1 with
    | zero => simp at h1
    | succ f1 =>
      cases f2 with
      | zero => simp at h2
      | succ f2 =>
        rw [chunks8, chunks8]
        congr 1
        exact chunks8_congr f1 f2 _
          (by simp only [List.length_drop, List.length_cons] at *; omega)
          (by simp only [List.length_drop, List.length_cons] at *; omega)
termination_by f1

theorem bits_to_bytes_nil : bits_to_bytes [] = [] := rfl

theorem bits_to_bytes_cons (l : List Bool) (h : l ≠ []) :
    bits_to_bytes l = bitsToNat (l.take 8) :: bits_to_bytes (l.drop 8) := by
  match l, h with
  | b :: bs, _ =>
    show chunks8 (b :: bs).length (b :: bs) = _
    rw [show (b :: bs).length = bs.length + 1 from rfl, chunks8]
    congr 1
    exact chunks8_congr _ _ _
      (by simp only [List.length_drop, List.length_cons]; omega) (le_refl _)

theorem bits_to_bytes_length (l : List Bool) :
    (bits_to_bytes l).length = (l.length + 7) / 8 := by
  cases l with
  | nil => simp [bits_to_bytes_nil]
  | cons b bs =>
    rw [bits_to_bytes_cons _ (by simp), List.length_cons,
      bits_to_bytes_length ((b :: bs).drop 8)]
    simp only [List.length_drop, List.length_cons]
    omega
termination_by l.length
decreasing_by simp only [List.length_drop, List.length_cons]; omega

theorem bytes_to_bits_bits_to_bytes (l : List Bool) :
    bytes_to_bits (bits_to_bytes l) =
      l ++ List.replicate (8 * ((l.length + 7) / 8) - l.length) false := by
  cases l with
  | nil => simp [bits_to_bytes_nil, bytes_to_bits_nil]
  | cons b bs =>
    rw [bits_to_bytes_cons _ (by simp), bytes_to_bits_cons,
      natToBits_bitsToNat _ 8 (by simp [List.length_take]),
      bytes_to_bits_bits_to_bytes ((b :: bs).drop 8)]
    rcases le_or_lt (b :: bs).length 8 with hle | hlt
    · have hdrop : (b :: bs).drop 8 = [] := List.drop_eq_nil_of_le hle
      have htake : (b :: bs).take 8 = b :: bs := List.take_of_length_le hle
      have h1 : 1 ≤ (b :: bs).length := by simp
      have harith : 8 * (((b :: bs).length + 7) / 8) - (b :: bs).length
          = 8 - (b :: bs).length := by
        have h78 : ((b :: bs).length + 7) / 8 = 1 := by omega
        rw [h78]
      rw [hdrop, htake, harith]
      simp
    · have htake : ((b :: bs).take 8).length = 8 := by
        rw [List.length_take]; omega
      have harith : 8 * ((((b :: bs).drop 8).length + 7) / 8) - ((b :: bs).drop 8).length
          = 8 * (((b :: bs).length + 7) / 8) - (b :: bs).length := by
        simp only [List.length_drop, List.length_cons] at hlt ⊢
        omega
      rw [htake, Nat.sub_self, List.replicate_zero, List.append_nil, harith,
        ← List.append_assoc, List.take_append_drop]
termination_by l.length
decreasing_by simp only [List.length_drop, List.length_cons]; omega

theorem mem_bits_to_bytes_lt (l : List Bool) : ∀ x ∈ bits_to_bytes l, x < 256 := by
  cases l with
  | nil => simp [bits_to_bytes_nil]
  | cons b bs =>
    rw [bits_to_bytes_cons _ (by simp)]
    intro x hx
    rcases List.mem_cons.mp hx with h | h
    · subst h
      have hlt := bitsToNat_lt ((b :: bs).take 8)
      have hlen : ((b :: bs).take 8).length ≤ 8 := by simp [List.length_take]
      calc bitsToNat ((b :: bs).take 8) < 2 ^ ((b :: bs).take 8).length := hlt
        _ ≤ 2 ^ 8 := Nat.pow_le_pow_right (by norm_num) hlen
    · exact mem_bits_to_bytes_lt ((b :: bs).drop 8) x h
termination_by l.length
decreasing_by simp only [List.length_drop, List.length_cons]; omega

theorem bits_to_bytes_bytes_to_bits (bs : List Nat) (h : ∀ b ∈ bs, b < 256) :
    bits_to_bytes (bytes_to_bits bs) = bs := by
  induction bs with
  | nil => rfl
  | cons b rest ih =>
    have hlen8 : (natToBits 8 b).length = 8 := natToBits_length 8 b
    rw [bytes_to_bits_cons,
      bits_to_bytes_cons _ (by
        intro hc
        have hlc := congrArg List.length hc
        simp [hlen8] at hlc),
      List.take_append_eq_append_take, List.drop_append_eq_append_drop, hlen8]
    simp only [Nat.sub_self, List.take_zero, List.append_nil, List.drop_zero,
      List.take_of_length_le (le_of_eq hlen8), List.drop_eq_nil_of_le (le_of_eq hlen8),
      List.nil_append]
    have hb : b < 2 ^ 8 := lt_of_lt_of_le (h b (List.mem_cons_self b rest)) (by norm_num)
    rw [bitsToNat_natToBits, Nat.mod_eq_of_lt hb,
      ih fun x hx => h x (List.mem_cons_of_mem b hx)]

theorem bytesToNat_natToBytes (k n : Nat) : bytesToNat (natToBytes k n) = n % 2 ^ (8 * k) := by
  rw [natToBytes, bytesToNat, bytes_to_bits_bits_to_bytes, natToBits_length]
  have h0 : 8 * ((8 * k + 7) / 8) - 8 * k = 0 := by omega
  rw [h0, List.replicate_zero, List.append_nil, bitsToNat_natToBits]

theorem natToBytes_length (k n : Nat) : (natToBytes k n).length = k := by
  rw [natToBytes, bits_to_bytes_length, natToBits_length]
  omega

theorem natToBytes_bytesToNat (bs : List Nat) (h : ∀ b ∈ bs, b < 256) :
    natToBytes bs.length (bytesToNat bs) = bs := by
  have hlen : (bytes_to_bits bs).length = 8 * bs.length := bytes_to_bits_length bs
  rw [natToBytes, bytesToNat, natToBits_bitsToNat _ _ (le_of_eq hlen), hlen, Nat.sub_self,
    List.replicate_zero, List.append_nil, bits_to_bytes_bytes_to_bits _ h]

theorem bits_to_bytes_append_replicate (l : List Bool) (p : Nat)
    (h : (l.length + p + 7) / 8 = (l.length + 7) / 8) :
    bits_to_bytes (l ++ List.replicate p false) = bits_to_bytes l := by
  rcases le_or_lt l.length 7 with hle | hlt
  · cases l with
    | nil =>
      have hp : p = 0 := by simp at h; omega
      simp [hp]
    | cons b bs =>
      have h1 : 1 ≤ (b :: bs).length := by simp
      have hp : (b :: bs).length + p ≤ 8 := by omega
      rw [bits_to_bytes_cons ((b :: bs) ++ List.replicate p false) (by simp),
        bits_to_bytes_cons (b :: bs) (by simp),
        List.take_of_length_le (le_trans hle (by norm_num)),
        List.take_of_length_le (by simp only [List.length_append, List.length_replicate]; omega),
        List.drop_eq_nil_of_le (le_trans hle (by norm_num)),
        List.drop_eq_nil_of_le (by simp only [List.length_append, List.length_replicate]; omega),
        bitsToNat_append_replicate_false]
  · have hne1 : l ++ List.replicate p false ≠ [] := by
      intro hc
      have := congrArg List.length hc
      simp only [List.length_append, List.length_replicate, List.length_nil] at this
      omega
    have hne2 : l ≠ [] := by
      intro hc; rw [hc] at hlt; simp at hlt
    have h8 : 8 - l.length = 0 := by omega
    rw [bits_to_bytes_cons _ hne1, bits_to_bytes_cons l hne2,
      List.take_append_eq_append_take, List.drop_append_eq_append_drop, h8,
      List.take_zero, List.append_nil, List.drop_zero]
    congr 1
    exact bits_to_bytes_append_replicate (l.drop 8) p
      (by simp only [List.length_drop]; omega)
termination_by l.length
decreasing_by simp only [List.length_drop]; omega

theorem chunksOfFuel_of_neg (P fuel : Nat) (l : List Bool)
    (hc : ¬(P ≤ l.length ∧ 1 ≤ P)) : chunksOfFuel P fuel l = ([], l) := by
  cases fuel with
  | zero => rfl
  | succ fuel => rw [chunksOfFuel, if_neg hc]

theorem chunksOfFuel_congr (P f1 f2 : Nat) (l : List Bool)
    (h1 : l.length ≤ f1) (h2 : l.length ≤ f2) :
    chunksOfFuel P f1 l = chunksOfFuel P f2 l := by
  by_cases hc : P ≤ l.length ∧ 1 ≤ P
  · obtain ⟨hPl, hP1⟩ := hc
    cases f1 with
    | zero => omega
    | succ f1 =>
      cases f2 with
      | zero => omega
      | succ f2 =>
        rw [chunksOfFuel, chunksOfFuel, if_pos ⟨hPl, hP1⟩, if_pos ⟨hPl, hP1⟩,
          chunksOfFuel_congr P f1 f2 (l.drop P)
            (by simp only [List.length_drop]; omega)
            (by simp only [List.length_drop]; omega)]
  · rw [chunksOfFuel_of_neg P f1 l hc, chunksOfFuel_of_neg P f2 l hc]
termination_by f1

theorem chunksOf_eq_nil (P : Nat) (l : List Bool) (hc : ¬(P ≤ l.length ∧ 1 ≤ P)) :
    chunksOf P l = [] := by
  rw [chunksOf, chunksOfFuel_of_neg P _ l hc]

theorem chunkRest_eq_self (P : Nat) (l : List Bool) (hc : ¬(P ≤ l.length ∧ 1 ≤ P)) :
    chunkRest P l = l := by
  rw [chunkRest, chunksOfFuel_of_neg P _ l hc]

theorem chunksOf_cons (P : Nat) (l : List Bool) (hP : 1 ≤ P) (hl : P ≤ l.length) :
    chunksOf P l = l.take P :: chunksOf P (l.drop P) := by
  rw [chunksOf]
  obtain ⟨n, hL⟩ : ∃ n, l.length = n + 1 := ⟨l.length - 1, by omega⟩
  rw [hL, chunksOfFuel, if_pos ⟨hl, hP⟩,
    chunksOfFuel_congr P n (l.drop P).length (l.drop P)
      (by simp only [List.length_drop]; omega) (le_refl _)]
  rfl

theorem chunkRest_cons (P : Nat) (l : List Bool) (hP : 1 ≤ P) (hl : P ≤ l.length) :
    chunkRest P l = chunkRest P (l.drop P) := by
  rw [chunkRest]
  obtain ⟨n, hL⟩ : ∃ n, l.length = n + 1 := ⟨l.length - 1, by omega⟩
  rw [hL, chunksOfFuel, if_pos ⟨hl, hP⟩,
    chunksOfFuel_congr P n (l.drop P).length (l.drop P)
      (by simp only [List.length_drop]; omega) (le_refl _)]
  rfl

theorem chunksOf_length (P : Nat) (l : List Bool) (hP : 1 ≤ P) :
    (chunksOf P l).length = l.length / P := by
  by_cases hl : P ≤ l.length
  · rw [chunksOf_cons P l hP hl, List.length_cons, chunksOf_length P (l.drop P) hP,
      List.length_drop, Nat.div_eq_sub_div (by omega) hl]
  · rw [chunksOf_eq_nil P l (by intro hc; exact hl hc.1), List.length_nil,
      Nat.div_eq_of_lt (by omega)]
termination_by l.length
decreasing_by simp only [List.length_drop]; omega

theorem chunkRest_length (P : Nat) (l : List Bool) (hP : 1 ≤ P) :
    (chunkRest P l).length = l.length % P := by
  by_cases hl : P ≤ l.length
  · rw [chunkRest_cons P l hP hl, chunkRest_length P (l.drop P) hP, List.length_drop,
      ← Nat.mod_eq_sub_mod hl]
  · rw [chunkRest_eq_self P l (by intro hc; exact hl hc.1),
      Nat.mod_eq_of_lt (by omega)]
termination_by l.length
decreasing_by simp only [List.length_drop]; omega

theorem chunksOf_mem_length (P : Nat) (l : List Bool) (hP : 1 ≤ P) :
    ∀ c ∈ chunksOf P l, c.length = P := by
  by_cases hl : P ≤ l.length
  · rw [chunksOf_cons P l hP hl]
    intro c hc
    rcases List.mem_cons.mp hc with h | h
    · subst h
      rw [List.length_take]
      omega
    · exact chunksOf_mem_length P (l.drop P) hP c h
  · rw [chunksOf_eq_nil P l (by intro hc; exact hl hc.1)]
    simp
termination_by l.length
decreasing_by simp only [List.length_drop]; omega

theorem chunksOf_flatten_rest (P : Nat) (l : List Bool) (hP : 1 ≤ P) :
    (chunksOf P l).flatten ++ chunkRest P l = l := by
  by_cases hl : P ≤ l.length
  · rw [chunksOf_cons P l hP hl, chunkRest_cons P l hP hl, List.flatten_cons,
      List.append_assoc, chunksOf_flatten_rest P (l.drop P) hP, List.take_append_drop]
  · rw [chunksOf_eq_nil P l (by intro hc; exact hl hc.1),
      chunkRest_eq_self P l (by intro hc; exact hl hc.1), List.flatten_nil,
      List.nil_append]
termination_by l.length
decreasing_by simp only [List.length_drop]; omega

theorem mod_succ_of_mod (i P a : Nat) (hi : i % P = a) :
    (i + 1) % P = (a + 1) % P := by
  conv_lhs => rw [← Nat.div_add_mod i P]
  rw [hi, Nat.add_assoc, Nat.mul_add_mod]

/-- Characterization of the payload loop: starting with accumulator `acc`
and bit index `i` congruent to the accumulator length, the loop appends
one element and one sign bit per full `PAYLOAD_ELEMENT_BITSIZE`-bit chunk
of `acc ++ bits` and returns the remainder as the new accumulator.
Requires `2 ≤ PAYLOAD_ELEMENT_BITSIZE` (as in the concrete instantiation,
where it is 251) so that the `i > 0` guard is implied at flush points. -/
theorem payloadLoop_spec (pp : Params) (hP : 2 ≤ pp.PAYLOAD_ELEMENT_BITSIZE)
    (bits : List Bool) (i : Nat) (acc : List Bool) (elems : List GElem) (highs : List Bool)
    (hi : i % pp.PAYLOAD_ELEMENT_BITSIZE = acc.length)
    (hacc : acc.length < pp.PAYLOAD_ELEMENT_BITSIZE) :
    payloadLoop pp bits i acc elems highs =
      (elems ++ (chunksOf pp.PAYLOAD_ELEMENT_BITSIZE (acc ++ bits)).map (chunkElem pp),
       highs ++ (chunksOf pp.PAYLOAD_ELEMENT_BITSIZE (acc ++ bits)).map (chunkHigh pp),
       chunkRest pp.PAYLOAD_ELEMENT_BITSIZE (acc ++ bits)) := by
  induction bits generalizing i acc elems highs with
  | nil =>
    rw [payloadLoop, List.append_nil,
      chunksOf_eq_nil _ _ (by rintro ⟨h1, h2⟩; omega),
      chunkRest_eq_self _ _ (by rintro ⟨h1, h2⟩; omega)]
    simp
  | cons bit rest ih =>
    rw [payloadLoop]
    have hmod := mod_succ_of_mod i pp.PAYLOAD_ELEMENT_BITSIZE acc.length hi
    by_cases hcond : 0 < i ∧ (i + 1) % pp.PAYLOAD_ELEMENT_BITSIZE = 0
    · -- flush branch: the accumulator including this bit is one full chunk
      have hfull : acc.length + 1 = pp.PAYLOAD_ELEMENT_BITSIZE := by
        rcases Nat.lt_or_ge (acc.length + 1) pp.PAYLOAD_ELEMENT_BITSIZE with hlt | hge
        · rw [Nat.mod_eq_of_lt hlt] at hmod
          omega
        · omega
      rw [if_pos hcond, ih (i + 1) [] _ _ (by rw [hcond.2]; rfl)
        (by simp only [List.length_nil]; omega)]
      have hchunk : chunksOf pp.PAYLOAD_ELEMENT_BITSIZE (acc ++ bit :: rest) =
          (acc ++ [bit]) :: chunksOf pp.PAYLOAD_ELEMENT_BITSIZE rest := by
        rw [List.append_cons acc bit rest,
          chunksOf_cons _ _ (by omega)
            (by simp only [List.length_append, List.length_cons, List.length_nil]; omega),
          List.take_append_eq_append_take, List.take_of_length_le
            (by simp only [List.length_append, List.length_cons, List.length_nil]; omega),
          List.drop_append_eq_append_drop, List.drop_eq_nil_of_le
            (by simp only [List.length_append, List.length_cons, List.length_nil]; omega)]
        simp only [List.length_append, List.length_cons, List.length_nil]
        have hz : pp.PAYLOAD_ELEMENT_BITSIZE - (acc.length + 1) = 0 := by omega
        simp [hz]
      have hrest : chunkRest pp.PAYLOAD_ELEMENT_BITSIZE (acc ++ bit :: rest) =
          chunkRest pp.PAYLOAD_ELEMENT_BITSIZE rest := by
        rw [List.append_cons acc bit rest,
          chunkRest_cons _ _ (by omega)
            (by simp only [List.length_append, List.length_cons, List.length_nil]; omega),
          List.drop_append_eq_append_drop, List.drop_eq_nil_of_le
            (by simp only [List.length_append, List.length_cons, List.length_nil]; omega)]
        simp only [List.length_append, List.length_cons, List.length_nil]
        have hz : pp.PAYLOAD_ELEMENT_BITSIZE - (acc.length + 1) = 0 := by omega
        simp [hz]
      rw [hchunk, hrest, List.map_cons, List.map_cons]
      simp [chunkElem, chunkHigh, List.append_assoc]
    · -- no flush: the accumulator grows by one bit
      have hsmall : acc.length + 1 < pp.PAYLOAD_ELEMENT_BITSIZE := by
        rcases Nat.lt_or_ge (acc.length + 1) pp.PAYLOAD_ELEMENT_BITSIZE with hlt | hge
        · exact hlt
        · exfalso
          have heq : acc.length + 1 = pp.PAYLOAD_ELEMENT_BITSIZE := by omega
          rw [heq, Nat.mod_self] at hmod
          rcases Nat.eq_zero_or_pos i with hz | hpos
          · subst hz
            rw [Nat.zero_mod] at hi
            omega
          · exact hcond ⟨hpos, hmod⟩
      rw [if_neg hcond, ih (i + 1) (acc ++ [bit]) _ _
        (by
          simp only [List.length_append, List.length_cons, List.length_nil, Nat.zero_add]
          rw [hmod]
          exact Nat.mod_eq_of_lt hsmall)
        (by simp only [List.length_append, List.length_cons, List.length_nil]; omega),
        List.append_cons acc bit rest]

theorem from_random_bytes_nonce (pp : Params) (r : Record)
    (hCurve : pp.onCurve (nonceBytes pp r) = true) :
    from_random_bytes pp (natToBytes pp.innerBytes r.serial_number_nonce) =
      some ⟨nonceBytes pp r, nonceBytes pp r⟩ := by
  rw [show natToBytes pp.innerBytes r.serial_number_nonce = nonceBytes pp r from rfl,
    from_random_bytes, if_pos hCurve]

theorem readOuterField_eq_some (pp : Params) (bytes : List Nat)
    (hLen : pp.outerBytes ≤ bytes.length)
    (hMod : bytesToNat (bytes.take pp.outerBytes) < pp.outerMod) :
    readOuterField pp bytes = some (bytesToNat (bytes.take pp.outerBytes)) := by
  rw [readOuterField, if_pos ⟨hLen, hMod⟩]

/-- On an accepted record, `serialize` succeeds and returns exactly the
closed-form element sequence and tail sign bit. -/
theorem serialize_eq_ok (pp : Params) (r : Record)
    (hP : 2 ≤ pp.PAYLOAD_ELEMENT_BITSIZE)
    (hCurve : pp.onCurve (nonceBytes pp r) = true)
    (hbLen : pp.outerBytes ≤ r.birth_program_id.length)
    (hbMod : birthValue pp r < pp.outerMod)
    (hdLen : pp.outerBytes ≤ r.death_program_id.length)
    (hdMod : deathValue pp r < pp.outerMod) :
    serialize pp r = .ok (serializeElems pp r) (tailHigh pp r) := by
  have hchlen : (chunksOf pp.PAYLOAD_ELEMENT_BITSIZE (bytes_to_bits r.payload)).length =
      r.payload.length * 8 / pp.PAYLOAD_ELEMENT_BITSIZE := by
    rw [chunksOf_length _ _ (by omega), bytes_to_bits_length, Nat.mul_comm]
  simp only [serialize, from_random_bytes_nonce pp r hCurve,
    readOuterField_eq_some pp r.birth_program_id hbLen hbMod,
    readOuterField_eq_some pp r.death_program_id hdLen hdMod]
  rw [payloadLoop_spec pp hP (bytes_to_bits r.payload) 0 [] _ _ (by simp)
    (by simp only [List.length_nil]; omega)]
  split
  · simp only [serializeElems, tailHigh, tailBits, allHighs, tailLeftover, loopHighs,
      valueOverflows, leftoverBits, payloadChunks, payloadBits, flushElem, flushHigh,
      chunkElem, chunkHigh, tailElem, nonceBytes, randomnessBytes, birthLowBits,
      deathLowBits, remainderBits, birthValue, deathValue, List.nil_append,
      List.cons_append, List.append_assoc, List.length_append, List.length_cons,
      List.length_nil, List.length_map]
    by_cases hov : pp.PAYLOAD_ELEMENT_BITSIZE <
        (chunkRest pp.PAYLOAD_ELEMENT_BITSIZE (bytes_to_bits r.payload)).length +
          ((chunksOf pp.PAYLOAD_ELEMENT_BITSIZE (bytes_to_bits r.payload)).length
            + 1 + 1 + 1 + 1 + 1) + 64
    · simp [hov, List.append_assoc]
    · simp [hov, List.append_assoc]
  · next h =>
    exact absurd
      ⟨by simp only [List.nil_append, List.length_append, List.length_cons,
          List.length_nil, List.length_map, hchlen],
       by simp only [List.nil_append, List.length_append, List.length_cons,
          List.length_nil, List.length_map, hchlen]⟩ h

/-! ## Shape facts about the closed-form output -/

theorem loopHighs_length (pp : Params) (r : Record) :
    (loopHighs pp r).length = 5 + (payloadChunks pp r).length := by
  simp [loopHighs]
  omega

theorem allHighs_length (pp : Params) (r : Record) :
    (allHighs pp r).length =
      5 + (payloadChunks pp r).length + (if valueOverflows pp r then 1 else 0) := by
  rw [allHighs]
  by_cases hov : valueOverflows pp r
  · simp [hov, loopHighs_length]
  · simp [hov, loopHighs_length]

theorem serializeElems_length (pp : Params) (r : Record) :
    (serializeElems pp r).length =
      5 + (payloadChunks pp r).length + (if valueOverflows pp r then 1 else 0) + 1 := by
  rw [serializeElems]
  by_cases hov : valueOverflows pp r
  · simp [hov]
    omega
  · simp [hov]
    omega

theorem allHighs_length_eq (pp : Params) (r : Record) :
    (allHighs pp r).length = (serializeElems pp r).length - 1 := by
  rw [allHighs_length, serializeElems_length]
  omega

theorem list_getD_concat {α : Type} (l : List α) (t d : α) :
    (l ++ [t]).getD l.length d = t := by
  rw [List.getD_append_right l [t] d l.length (le_refl l.length), Nat.sub_self]
  rfl

theorem take_append_of_length_eq {α : Type} (l m : List α) (n : Nat) (h : l.length = n) :
    (l ++ m).take n = l := by
  rw [List.take_append_eq_append_take, h, Nat.sub_self, List.take_zero, List.append_nil,
    List.take_of_length_le (le_of_eq h)]

theorem drop_append_of_length_eq {α : Type} (l m : List α) (n : Nat) (h : l.length = n) :
    (l ++ m).drop n = m := by
  rw [List.drop_append_eq_append_drop, h, Nat.sub_self, List.drop_zero,
    List.drop_eq_nil_of_le (le_of_eq h), List.nil_append]

/-! ## Further toolkit lemmas for the round trip -/

theorem bytes_to_bits_natToBytes (k n : Nat) :
    bytes_to_bits (natToBytes k n) = natToBits (8 * k) n := by
  rw [natToBytes, bytes_to_bits_bits_to_bytes, natToBits_length]
  have h0 : 8 * ((8 * k + 7) / 8) - 8 * k = 0 := by omega
  rw [h0, List.replicate_zero, List.append_nil]

theorem bytesToNat_bits_to_bytes (l : List Bool) :
    bytesToNat (bits_to_bytes l) = bitsToNat l := by
  rw [bytesToNat, bytes_to_bits_bits_to_bytes, bitsToNat_append_replicate_false]

theorem mem_natToBytes_lt (k n : Nat) : ∀ b ∈ natToBytes k n, b < 256 :=
  mem_bits_to_bytes_lt _

theorem list_take_take {α : Type} (l : List α) (m n : Nat) :
    (l.take m).take n = l.take (min n m) :=
  List.take_take n m l

theorem bits_to_bytes_take (k : Nat) (l : List Bool) (h : 8 * k ≤ l.length) :
    (bits_to_bytes l).take k = bits_to_bytes (l.take (8 * k)) := by
  induction k generalizing l with
  | zero => simp [bits_to_bytes_nil]
  | succ k ih =>
    have hne : l ≠ [] := by
      intro hc
      rw [hc] at h
      simp at h
    have hne2 : l.take (8 * (k + 1)) ≠ [] := by
      intro hc
      have hlc := congrArg List.length hc
      rw [List.length_take, List.length_nil] at hlc
      omega
    rw [bits_to_bytes_cons l hne, bits_to_bytes_cons _ hne2, List.take_succ_cons,
      list_take_take, Nat.min_def, if_pos (by omega), List.drop_take,
      ih (l.drop 8) (by rw [List.length_drop]; omega),
      show 8 * (k + 1) - 8 = 8 * k by omega]

/-- Bits `0 ..< D` of `n` followed by bits `D ..< O` are the `O` low bits. -/
theorem natToBits_split_testBit (D O n : Nat) (hDO : D ≤ O) :
    (List.range D).map n.testBit ++
      (List.range (O - D)).map (fun i => n.testBit (D + i)) = natToBits O n := by
  have hsplit : natToBits O n = natToBits D n ++ natToBits (O - D) (n / 2 ^ D) := by
    rw [← natToBits_add]
    congr 1
    omega
  rw [hsplit, natToBits_testBit, natToBits_testBit]
  congr 1
  apply List.map_congr_left
  intro i _
  rw [Nat.testBit_to_div_mod, Nat.testBit_to_div_mod, Nat.div_div_eq_div_mul, ← pow_add]

theorem take_append_add {α : Type} (X Y : List α) (b : Nat) :
    (X ++ Y).take (X.length + b) = X ++ Y.take b := by
  rw [List.take_append_eq_append_take, List.take_of_length_le (by omega),
    Nat.add_sub_cancel_left]

theorem drop_append_add {α : Type} (X Y : List α) (b : Nat) :
    (X ++ Y).drop (X.length + b) = Y.drop b := by
  rw [List.drop_append_eq_append_drop, List.drop_eq_nil_of_le (by omega),
    Nat.add_sub_cancel_left, List.nil_append]

theorem getD_last_append {α : Type} (front : List α) (t d : α) :
    (front ++ [t]).getD ((front ++ [t]).length - 1) d = t := by
  have hlen : (front ++ [t]).length - 1 = front.length := by
    simp [List.length_append]
  rw [hlen]
  exact list_getD_concat front t d

/-- Deserializing the closed-form serializer output recovers the payload,
value, nonce and randomness exactly, and each program identifier as the
canonical little-endian byte serialization of its
`OUTER_FIELD_BITSIZE`-bit field value. -/
theorem deserialize_serializeElems (pp : Params) (r : Record)
    (hVp : ValidParams pp) (hWF : WFRecord pp r) :
    deserialize pp (serializeElems pp r) (tailHigh pp r) =
      .ok { payload := r.payload
            value := r.value
            birth_program_id :=
              bits_to_bytes (natToBits pp.OUTER_FIELD_BITSIZE (birthValue pp r))
            death_program_id :=
              bits_to_bytes (natToBits pp.OUTER_FIELD_BITSIZE (deathValue pp r))
            serial_number_nonce := r.serial_number_nonce
            commitment_randomness := r.commitment_randomness } := by
  obtain ⟨hPD, hDI, hSI, hDO, hR1, hR2, hP2, hSBl, hSBh, hOBl, hOBh, hIM, hOM, hSM⟩ := hVp
  obtain ⟨hPL, hPB, hVL, hNL, hRL⟩ := hWF
  have hP1 : 1 ≤ pp.PAYLOAD_ELEMENT_BITSIZE := by omega
  have hLlen := serializeElems_length pp r
  have hAHlen := allHighs_length_eq pp r
  have hL6 : 6 ≤ (serializeElems pp r).length := by
    rw [hLlen]
    by_cases hov : valueOverflows pp r = true <;> simp [hov] <;> omega
  have hTlen : (tailBits pp r).length =
      (serializeElems pp r).length + 64 + (tailLeftover pp r).length := by
    simp only [tailBits, List.length_append, List.length_cons, List.length_nil,
      bytes_to_bits_length, natToBytes_length, hAHlen]
    omega
  -- element accesses
  have hLast : (serializeElems pp r).getD ((serializeElems pp r).length - 1) ⟨[], []⟩
      = tailElem pp r := by
    rw [serializeElems]
    exact getD_last_append _ _ _
  have hget0 : (serializeElems pp r).getD 0 ⟨[], []⟩
      = ⟨nonceBytes pp r, nonceBytes pp r⟩ := rfl
  have hget1 : (serializeElems pp r).getD 1 ⟨[], []⟩
      = (encode_to_group pp (randomnessBytes pp r)).1 := rfl
  have hget2 : (serializeElems pp r).getD 2 ⟨[], []⟩
      = (encode_to_group pp (bits_to_bytes (birthLowBits pp r))).1 := rfl
  have hget3 : (serializeElems pp r).getD 3 ⟨[], []⟩
      = (encode_to_group pp (bits_to_bytes (deathLowBits pp r))).1 := rfl
  have hget4 : (serializeElems pp r).getD 4 ⟨[], []⟩
      = (encode_to_group pp (bits_to_bytes (remainderBits pp r))).1 := rfl
  -- field reads
  have hnonceRead : readInnerField pp (nonceBytes pp r) = some r.serial_number_nonce := by
    have hlen : (nonceBytes pp r).length = pp.innerBytes := natToBytes_length _ _
    rw [readInnerField, List.take_of_length_le (le_of_eq hlen),
      show bytesToNat (nonceBytes pp r) = r.serial_number_nonce from by
        rw [nonceBytes, bytesToNat_natToBytes]
        exact Nat.mod_eq_of_lt (lt_of_lt_of_le hNL hIM),
      if_pos ⟨le_of_eq hlen.symm, hNL⟩]
  have hvD : r.commitment_randomness < 2 ^ pp.DATA_ELEMENT_BITSIZE :=
    lt_of_lt_of_le hRL (le_trans hSM (Nat.pow_le_pow_right (by norm_num) (by omega)))
  have hrandRead : readScalarField pp (bits_to_bytes
      ((bytes_to_bits (randomnessBytes pp r)).take pp.DATA_ELEMENT_BITSIZE))
      = some r.commitment_randomness := by
    rw [randomnessBytes, bytes_to_bits_natToBytes, natToBits_take _ _ _ hSBl]
    have hlen2 : (bits_to_bytes
        (natToBits pp.DATA_ELEMENT_BITSIZE r.commitment_randomness)).length
        = (pp.DATA_ELEMENT_BITSIZE + 7) / 8 := by
      rw [bits_to_bytes_length, natToBits_length]
    rw [readScalarField, List.take_of_length_le (by rw [hlen2]; omega),
      bytesToNat_bits_to_bytes, bitsToNat_natToBits, Nat.mod_eq_of_lt hvD,
      if_pos ⟨by rw [hlen2]; omega, hRL⟩]
  -- identifier bit strings
  have hbLowLen : (birthLowBits pp r).length = pp.DATA_ELEMENT_BITSIZE := by
    simp [birthLowBits]
  have hdLowLen : (deathLowBits pp r).length = pp.DATA_ELEMENT_BITSIZE := by
    simp [deathLowBits]
  have hbLow : (bytes_to_bits (bits_to_bytes (birthLowBits pp r))).take
      pp.DATA_ELEMENT_BITSIZE = birthLowBits pp r := by
    rw [bytes_to_bits_bits_to_bytes, List.take_append_eq_append_take, hbLowLen,
      Nat.sub_self, List.take_zero, List.append_nil,
      List.take_of_length_le (le_of_eq hbLowLen)]
  have hdLow : (bytes_to_bits (bits_to_bytes (deathLowBits pp r))).take
      pp.DATA_ELEMENT_BITSIZE = deathLowBits pp r := by
    rw [bytes_to_bits_bits_to_bytes, List.take_append_eq_append_take, hdLowLen,
      Nat.sub_self, List.take_zero, List.append_nil,
      List.take_of_length_le (le_of_eq hdLowLen)]
  have hremLenB : ((List.range (pp.OUTER_FIELD_BITSIZE - pp.DATA_ELEMENT_BITSIZE)).map
      (fun i => (birthValue pp r).testBit (pp.DATA_ELEMENT_BITSIZE + i))).length
      = pp.OUTER_FIELD_BITSIZE - pp.DATA_ELEMENT_BITSIZE := by simp
  have hremLenD : ((List.range (pp.OUTER_FIELD_BITSIZE - pp.DATA_ELEMENT_BITSIZE)).map
      (fun i => (deathValue pp r).testBit (pp.DATA_ELEMENT_BITSIZE + i))).length
      = pp.OUTER_FIELD_BITSIZE - pp.DATA_ELEMENT_BITSIZE := by simp
  have hremB : (bytes_to_bits (bits_to_bytes (remainderBits pp r))).take
      (pp.OUTER_FIELD_BITSIZE - pp.DATA_ELEMENT_BITSIZE)
      = (List.range (pp.OUTER_FIELD_BITSIZE - pp.DATA_ELEMENT_BITSIZE)).map
          (fun i => (birthValue pp r).testBit (pp.DATA_ELEMENT_BITSIZE + i)) := by
    rw [bytes_to_bits_bits_to_bytes, remainderBits, List.append_assoc,
      List.take_append_eq_append_take, hremLenB, Nat.sub_self, List.take_zero,
      List.append_nil, List.take_of_length_le (le_of_eq hremLenB)]
  have hremD : ((bytes_to_bits (bits_to_bytes (remainderBits pp r))).drop
      (pp.OUTER_FIELD_BITSIZE - pp.DATA_ELEMENT_BITSIZE)).take
      (pp.OUTER_FIELD_BITSIZE - pp.DATA_ELEMENT_BITSIZE)
      = (List.range (pp.OUTER_FIELD_BITSIZE - pp.DATA_ELEMENT_BITSIZE)).map
          (fun i => (deathValue pp r).testBit (pp.DATA_ELEMENT_BITSIZE + i)) := by
    rw [bytes_to_bits_bits_to_bytes, remainderBits, List.append_assoc,
      List.drop_append_eq_append_drop, hremLenB, Nat.sub_self, List.drop_zero,
      List.drop_eq_nil_of_le (le_of_eq hremLenB), List.nil_append,
      List.take_append_eq_append_take, hremLenD, Nat.sub_self, List.take_zero,
      List.append_nil, List.take_of_length_le (le_of_eq hremLenD)]
  have hbirthID : birthLowBits pp r ++
      (List.range (pp.OUTER_FIELD_BITSIZE - pp.DATA_ELEMENT_BITSIZE)).map
        (fun i => (birthValue pp r).testBit (pp.DATA_ELEMENT_BITSIZE + i))
      = natToBits pp.OUTER_FIELD_BITSIZE (birthValue pp r) := by
    rw [birthLowBits]
    exact natToBits_split_testBit _ _ _ hDO
  have hdeathID : deathLowBits pp r ++
      (List.range (pp.OUTER_FIELD_BITSIZE - pp.DATA_ELEMENT_BITSIZE)).map
        (fun i => (deathValue pp r).testBit (pp.DATA_ELEMENT_BITSIZE + i))
      = natToBits pp.OUTER_FIELD_BITSIZE (deathValue pp r) := by
    rw [deathLowBits]
    exact natToBits_split_testBit _ _ _ hDO
  -- slices of the decoded tail bit string
  have hfq : ∀ padl : List Bool, ((tailBits pp r ++ padl).drop 1).take
      ((serializeElems pp r).length - 1) = allHighs pp r := by
    intro padl
    simp only [tailBits, List.append_assoc, List.cons_append, List.nil_append,
      List.drop_succ_cons, List.drop_zero]
    rw [← hAHlen]
    exact take_append_of_length_eq _ _ _ rfl
  have hVlen : (bytes_to_bits (natToBytes 8 r.value)).length = 64 := by
    rw [bytes_to_bits_length, natToBytes_length]
  have hvalSlice : ∀ padl : List Bool,
      ((tailBits pp r ++ padl).drop (serializeElems pp r).length).take 64
        = bytes_to_bits (natToBytes 8 r.value) := by
    intro padl
    simp only [tailBits, List.append_assoc, List.cons_append, List.nil_append]
    rw [show (serializeElems pp r).length = ((serializeElems pp r).length - 1) + 1 by omega,
      List.drop_succ_cons, ← hAHlen,
      drop_append_of_length_eq _ _ _ rfl]
    exact take_append_of_length_eq _ _ _ hVlen
  have hdropVal : ∀ padl : List Bool,
      (tailBits pp r ++ padl).drop ((serializeElems pp r).length + 64)
        = tailLeftover pp r ++ padl := by
    intro padl
    simp only [tailBits, List.append_assoc, List.cons_append, List.nil_append]
    rw [show (serializeElems pp r).length + 64 = (((serializeElems pp r).length - 1) + 64) + 1
        by omega,
      List.drop_succ_cons, ← hAHlen, drop_append_add, ← hVlen,
      drop_append_of_length_eq _ _ _ rfl]
  -- the payload element slice
  have hdrop5 : (serializeElems pp r).drop 5
      = ((payloadChunks pp r).map (chunkElem pp) ++
          (if valueOverflows pp r then [flushElem pp r] else [])) ++ [tailElem pp r] := rfl
  have hplen : ((payloadChunks pp r).map (chunkElem pp) ++
      (if valueOverflows pp r then [flushElem pp r] else [])).length
      = (serializeElems pp r).length - 1 - 5 := by
    rw [hLlen]
    by_cases hov : valueOverflows pp r = true <;> simp [hov] <;> omega
  have hpelems : ((serializeElems pp r).drop 5).take ((serializeElems pp r).length - 1 - 5)
      = (payloadChunks pp r).map (chunkElem pp) ++
        (if valueOverflows pp r then [flushElem pp r] else []) := by
    rw [hdrop5]
    exact take_append_of_length_eq _ _ _ hplen
  have hhighs5 : (allHighs pp r).drop 5
      = (payloadChunks pp r).map (chunkHigh pp) ++
        (if valueOverflows pp r then [flushHigh pp r] else []) := by
    by_cases hov : valueOverflows pp r = true
    · simp only [allHighs, loopHighs, hov, if_true]
      rfl
    · simp only [allHighs, loopHighs, hov, if_false]
      simp
  -- decoding the payload chunks gives back the chunks
  have hchunkbits : (((payloadChunks pp r).map (chunkElem pp)).zip
      ((payloadChunks pp r).map (chunkHigh pp))).map
      (fun eh => (bytes_to_bits (decode_from_group eh.1 eh.2)).take
        pp.PAYLOAD_ELEMENT_BITSIZE)
      = payloadChunks pp r := by
    rw [List.zip_map', List.map_map]
    have hid : ∀ c ∈ payloadChunks pp r,
        ((fun eh : GElem × Bool =>
            (bytes_to_bits (decode_from_group eh.1 eh.2)).take pp.PAYLOAD_ELEMENT_BITSIZE) ∘
          fun c => (chunkElem pp c, chunkHigh pp c)) c = id c := by
      intro c hc
      have hclen : c.length = pp.PAYLOAD_ELEMENT_BITSIZE :=
        chunksOf_mem_length _ _ hP1 c hc
      show (bytes_to_bits (bits_to_bytes (c ++ [true]))).take pp.PAYLOAD_ELEMENT_BITSIZE = c
      rw [bytes_to_bits_bits_to_bytes, List.append_assoc, ← hclen]
      exact take_append_of_length_eq _ _ _ rfl
    rw [List.map_congr_left hid, List.map_id]
  -- reading the payload back
  have hrestLen : (leftoverBits pp r).length = (payloadBits r).length % pp.PAYLOAD_ELEMENT_BITSIZE :=
    chunkRest_length _ _ hP1
  have hcore : ∀ tail2 : List Bool,
      tail2.take (leftoverBits pp r).length = leftoverBits pp r →
      Payload.read pp (bits_to_bytes ((payloadChunks pp r).flatten ++ tail2))
        = some r.payload := by
    intro tail2 htake
    have hJ : (payloadChunks pp r).flatten ++ leftoverBits pp r = payloadBits r :=
      chunksOf_flatten_rest _ _ hP1
    have hJlen : (payloadChunks pp r).flatten.length + (leftoverBits pp r).length
        = 8 * r.payload.length := by
      have h1 := congrArg List.length hJ
      rw [List.length_append, payloadBits, bytes_to_bits_length] at h1
      exact h1
    have htail2len : (leftoverBits pp r).length ≤ tail2.length := by
      have h2 := congrArg List.length htake
      rw [List.length_take] at h2
      omega
    have hXlen : 8 * r.payload.length ≤
        ((payloadChunks pp r).flatten ++ tail2).length := by
      rw [List.length_append]
      omega
    rw [Payload.read, if_pos (by
      rw [bits_to_bytes_length]
      rw [← hPL] at *
      omega)]
    congr 1
    rw [← hPL, bits_to_bytes_take _ _ (by rw [hPL] at hXlen ⊢; exact hXlen),
      show 8 * r.payload.length = (payloadChunks pp r).flatten.length +
        (leftoverBits pp r).length from hJlen.symm,
      take_append_add, htake, hJ, payloadBits, bits_to_bytes_bytes_to_bits _ hPB]
  have hread : ∀ padl : List Bool, Payload.read pp (bits_to_bytes
      (((((payloadChunks pp r).map (chunkElem pp) ++
            (if valueOverflows pp r then [flushElem pp r] else [])).zip
          ((payloadChunks pp r).map (chunkHigh pp) ++
            (if valueOverflows pp r then [flushHigh pp r] else []))).map
          (fun eh => (bytes_to_bits (decode_from_group eh.1 eh.2)).take
            pp.PAYLOAD_ELEMENT_BITSIZE)).flatten ++ (tailLeftover pp r ++ padl)))
      = some r.payload := by
    intro padl
    by_cases hov : valueOverflows pp r = true
    · -- flushed element present; the leftover bits sit in the flushed element
      have hrlt : (leftoverBits pp r).length < pp.PAYLOAD_ELEMENT_BITSIZE := by
        rw [hrestLen]
        exact Nat.mod_lt _ (by omega)
      simp only [hov, if_true, tailLeftover, List.nil_append]
      rw [List.zip_append (by simp), List.zip_map', List.map_append, List.map_map,
        List.flatten_append]
      have hid : ∀ c ∈ payloadChunks pp r,
          ((fun eh : GElem × Bool =>
              (bytes_to_bits (decode_from_group eh.1 eh.2)).take pp.PAYLOAD_ELEMENT_BITSIZE) ∘
            fun c => (chunkElem pp c, chunkHigh pp c)) c = id c := by
        intro c hc
        have hclen : c.length = pp.PAYLOAD_ELEMENT_BITSIZE :=
          chunksOf_mem_length _ _ hP1 c hc
        show (bytes_to_bits (bits_to_bytes (c ++ [true]))).take pp.PAYLOAD_ELEMENT_BITSIZE = c
        rw [bytes_to_bits_bits_to_bytes, List.append_assoc, ← hclen]
        exact take_append_of_length_eq _ _ _ rfl
      rw [List.map_congr_left hid, List.map_id]
      -- the flushed element decodes to the leftover bits, a guard bit, padding
      have hK : ((List.zip [flushElem pp r] [flushHigh pp r]).map
          (fun eh => (bytes_to_bits (decode_from_group eh.1 eh.2)).take
            pp.PAYLOAD_ELEMENT_BITSIZE)).flatten
          = ((leftoverBits pp r ++ [true]) ++
              List.replicate (8 * (((leftoverBits pp r ++ [true]).length + 7) / 8)
                - (leftoverBits pp r ++ [true]).length) false).take
              pp.PAYLOAD_ELEMENT_BITSIZE := by
        show ((bytes_to_bits (bits_to_bytes (leftoverBits pp r ++ [true]))).take
          pp.PAYLOAD_ELEMENT_BITSIZE) ++ [] = _
        rw [List.append_nil, bytes_to_bits_bits_to_bytes]
      rw [hK, List.append_assoc]
      apply hcore
      rw [List.take_append_eq_append_take, List.length_take]
      have hmin : (leftoverBits pp r).length -
          min pp.PAYLOAD_ELEMENT_BITSIZE
            ((leftoverBits pp r ++ [true]) ++
              List.replicate (8 * (((leftoverBits pp r ++ [true]).length + 7) / 8)
                - (leftoverBits pp r ++ [true]).length) false).length = 0 := by
        rw [List.length_append, List.length_append, List.length_cons, List.length_nil]
        omega
      rw [hmin, List.take_zero, List.append_nil, list_take_take,
        Nat.min_def, if_pos (by omega), List.append_assoc,
        take_append_of_length_eq _ _ _ rfl]
    · -- no flushed element; the leftover bits sit in the tail element
      simp only [tailLeftover, if_neg hov, List.append_nil]
      rw [hchunkbits]
      exact hcore _ (take_append_of_length_eq _ _ _ rfl)
  have hvalue : bytesToNat (bits_to_bytes (bytes_to_bits (natToBytes 8 r.value)))
      = r.value := by
    rw [bits_to_bytes_bytes_to_bits _ (mem_natToBytes_lt _ _), bytesToNat_natToBytes]
    exact Nat.mod_eq_of_lt (by norm_num at hVL ⊢; exact hVL)
  have hdecAny : ∀ (bytes : List Nat) (s : Bool),
      decode_from_group ((encode_to_group pp bytes).1) s = bytes := fun _ _ => rfl
  -- unfold the decoder and rewrite step by step
  simp only [deserialize]
  rw [hLast]
  rw [show decode_from_group (tailElem pp r) (tailHigh pp r)
      = bits_to_bytes (tailBits pp r) from rfl]
  rw [bytes_to_bits_bits_to_bytes (tailBits pp r)]
  rw [if_neg (show ¬((serializeElems pp r).length = 0) by omega)]
  rw [if_neg (show ¬((tailBits pp r ++
      List.replicate (8 * (((tailBits pp r).length + 7) / 8)
        - (tailBits pp r).length) false).length < (serializeElems pp r).length) by
    rw [List.length_append]
    omega)]
  rw [if_neg (show ¬((serializeElems pp r).length < 2) by omega)]
  rw [hget0]
  rw [show (⟨nonceBytes pp r, nonceBytes pp r⟩ : GElem).xCoord = nonceBytes pp r from rfl]
  simp only [hnonceRead]
  rw [if_neg (show ¬((serializeElems pp r).length < 3) by omega)]
  rw [hget1]
  simp only [hdecAny]
  simp only [hrandRead]
  rw [if_neg (show ¬((serializeElems pp r).length < 4) by omega)]
  rw [hget2]
  rw [if_neg (show ¬((serializeElems pp r).length < 5) by omega)]
  rw [hget3]
  rw [if_neg (show ¬((serializeElems pp r).length < 6) by omega)]
  rw [hget4]
  simp only [hdecAny]
  rw [if_neg (show ¬((tailBits pp r ++
      List.replicate (8 * (((tailBits pp r).length + 7) / 8)
        - (tailBits pp r).length) false).length
      < (serializeElems pp r).length + 64) by
    rw [List.length_append]
    omega)]
  simp only [hfq, hvalSlice, hdropVal, hpelems, hhighs5]
  simp only [hread]
  rw [hvalue, hbLow, hdLow, hremB, hremD, hbirthID, hdeathID]

/-- Inversion: an `ok` result of `serialize` is exactly the closed-form
output. -/
theorem serialize_ok_inv (pp : Params) (r : Record)
    (hP2 : 2 ≤ pp.PAYLOAD_ELEMENT_BITSIZE)
    (elems : List GElem) (sign : Bool) (h : serialize pp r = .ok elems sign) :
    elems = serializeElems pp r ∧ sign = tailHigh pp r := by
  have hCurve : pp.onCurve (nonceBytes pp r) = true := by
    cases hcv : pp.onCurve (nonceBytes pp r)
    · rw [serialize, show from_random_bytes pp
          (natToBytes pp.innerBytes r.serial_number_nonce) = none from by
        rw [from_random_bytes,
          if_neg (by rw [show natToBytes pp.innerBytes r.serial_number_nonce
            = nonceBytes pp r from rfl, hcv]; simp)]] at h
      cases h
    · rfl
  obtain ⟨bv, hb⟩ : ∃ bv, readOuterField pp r.birth_program_id = some bv := by
    cases hb : readOuterField pp r.birth_program_id with
    | some bv => exact ⟨bv, rfl⟩
    | none =>
      cases hd : readOuterField pp r.death_program_id with
      | some dv =>
        rw [serialize, from_random_bytes_nonce pp r hCurve, hb, hd] at h
        simp at h
      | none =>
        rw [serialize, from_random_bytes_nonce pp r hCurve, hb, hd] at h
        simp at h
  obtain ⟨dv, hd⟩ : ∃ dv, readOuterField pp r.death_program_id = some dv := by
    cases hd : readOuterField pp r.death_program_id with
    | some dv => exact ⟨dv, rfl⟩
    | none =>
      rw [serialize, from_random_bytes_nonce pp r hCurve, hb, hd] at h
      simp at h
  have hbc : pp.outerBytes ≤ r.birth_program_id.length ∧
      bytesToNat (r.birth_program_id.take pp.outerBytes) < pp.outerMod := by
    by_contra hc
    rw [readOuterField, if_neg hc] at hb
    exact Option.noConfusion hb
  have hdc : pp.outerBytes ≤ r.death_program_id.length ∧
      bytesToNat (r.death_program_id.take pp.outerBytes) < pp.outerMod := by
    by_contra hc
    rw [readOuterField, if_neg hc] at hd
    exact Option.noConfusion hd
  rw [serialize_eq_ok pp r hP2 hCurve hbc.1 hbc.2 hdc.1 hdc.2] at h
  simp only [SOut.ok.injEq] at h
  exact ⟨h.1.symm, h.2.symm⟩

/-- The canonical byte serialization of an outer field element read from
a byte string of exactly the canonical length is that byte string. -/
theorem canonical_id_bytes (pp : Params) (bs : List Nat)
    (hOBl : pp.OUTER_FIELD_BITSIZE ≤ 8 * pp.outerBytes)
    (hOBh : 8 * pp.outerBytes < pp.OUTER_FIELD_BITSIZE + 8)
    (hOM : pp.outerMod ≤ 2 ^ pp.OUTER_FIELD_BITSIZE)
    (hLen : bs.length = pp.outerBytes)
    (hBytes : ∀ b ∈ bs, b < 256)
    (hMod : bytesToNat (bs.take pp.outerBytes) < pp.outerMod) :
    bits_to_bytes (natToBits pp.OUTER_FIELD_BITSIZE (bytesToNat (bs.take pp.outerBytes)))
      = bs := by
  have htake : bs.take pp.outerBytes = bs := List.take_of_length_le (le_of_eq hLen)
  rw [htake] at hMod ⊢
  have hval : bytesToNat bs < 2 ^ pp.OUTER_FIELD_BITSIZE := lt_of_lt_of_le hMod hOM
  have h1 : natToBits (8 * pp.outerBytes) (bytesToNat bs)
      = natToBits pp.OUTER_FIELD_BITSIZE (bytesToNat bs) ++
        List.replicate (8 * pp.outerBytes - pp.OUTER_FIELD_BITSIZE) false := by
    rw [show 8 * pp.outerBytes = pp.OUTER_FIELD_BITSIZE +
        (8 * pp.outerBytes - pp.OUTER_FIELD_BITSIZE) by omega, natToBits_add,
      Nat.div_eq_of_lt hval, natToBits_zero, Nat.add_sub_cancel_left]
  have h2 : bits_to_bytes (natToBits pp.OUTER_FIELD_BITSIZE (bytesToNat bs))
      = natToBytes pp.outerBytes (bytesToNat bs) := by
    rw [natToBytes, h1, bits_to_bytes_append_replicate _ _
      (by rw [natToBits_length]; omega)]
  rw [h2, ← hLen, natToBytes_bytesToNat bs hBytes]

/-- The slice of the decoded tail holding the embedded sign bits is the
sign-bit ledger, whatever byte padding follows the tail bits. -/
theorem tail_signbits_slice (pp : Params) (r : Record) (padl : List Bool) :
    ((tailBits pp r ++ padl).drop 1).take ((serializeElems pp r).length - 1)
      = allHighs pp r := by
  simp only [tailBits, List.append_assoc, List.cons_append, List.nil_append,
    List.drop_succ_cons, List.drop_zero]
  rw [← allHighs_length_eq pp r]
  exact take_append_of_length_eq _ _ _ rfl

/-- C1: for every record satisfying the bit-width invariants of §3 (bundled
in `ValidParams`) whose fields are well formed for the configuration and
whose identifiers are the canonical fixed-length byte strings of outer
field elements, deserializing the output of `serialize` (elements plus
final sign bit) succeeds and equals `DecodedRecord.ofRecord` field by
field. -/
theorem claim1_roundtrip (pp : Params) (r : Record)
    (hVp : ValidParams pp) (hWF : WFRecord pp r)
    (hCurve : pp.onCurve (nonceBytes pp r) = true)
    (hbLen : r.birth_program_id.length = pp.outerBytes)
    (hbBytes : ∀ b ∈ r.birth_program_id, b < 256)
    (hbMod : birthValue pp r < pp.outerMod)
    (hdLen : r.death_program_id.length = pp.outerBytes)
    (hdBytes : ∀ b ∈ r.death_program_id, b < 256)
    (hdMod : deathValue pp r < pp.outerMod) :
    ∃ elems sign, serialize pp r = .ok elems sign ∧
      deserialize pp elems sign = .ok (DecodedRecord.ofRecord r) := by
  refine ⟨serializeElems pp r, tailHigh pp r,
    serialize_eq_ok pp r hVp.hP2 hCurve (le_of_eq hbLen.symm) hbMod
      (le_of_eq hdLen.symm) hdMod, ?_⟩
  have hbid : bits_to_bytes (natToBits pp.OUTER_FIELD_BITSIZE (birthValue pp r))
      = r.birth_program_id :=
    canonical_id_bytes pp r.birth_program_id hVp.hOuterBytesLow hVp.hOuterBytesHigh
      hVp.hOuterMod hbLen hbBytes hbMod
  have hdid : bits_to_bytes (natToBits pp.OUTER_FIELD_BITSIZE (deathValue pp r))
      = r.death_program_id :=
    canonical_id_bytes pp r.death_program_id hVp.hOuterBytesLow hVp.hOuterBytesHigh
      hVp.hOuterMod hdLen hdBytes hdMod
  rw [deserialize_serializeElems pp r hVp hWF, hbid, hdid]
  rfl

/-- C1 witness at the concrete toy configuration. -/
theorem claim1_roundtrip_witness :
    ValidParams toyParams ∧ WFRecord toyParams toyRecord ∧
    toyParams.onCurve (nonceBytes toyParams toyRecord) = true ∧
    ∃ elems sign, serialize toyParams toyRecord = .ok elems sign ∧
      deserialize toyParams elems sign = .ok (DecodedRecord.ofRecord toyRecord) :=
  ⟨by constructor <;> decide, by constructor <;> decide, by decide,
   claim1_roundtrip toyParams toyRecord (by constructor <;> decide)
     (by constructor <;> decide) (by decide) (by decide) (by decide) (by decide)
     (by decide) (by decide) (by decide)⟩

/-- C2 (amended): for every record accepted by `serialize` (with the §3
invariant `2 ≤ PAYLOAD_ELEMENT_BITSIZE`), the output length is
`5 + ⌊payload_bits / PAYLOAD_ELEMENT_BITSIZE⌋ + (1 if overflow else 0) + 1`
— the number of full payload-chunk elements is the floor, not the ceiling,
of `payload_bits / PAYLOAD_ELEMENT_BITSIZE` — and any two accepted records
of equal payload byte length produce outputs of equal length. -/
theorem claim2_length_floor (pp : Params) (r r2 : Record)
    (hP2 : 2 ≤ pp.PAYLOAD_ELEMENT_BITSIZE)
    (elems elems2 : List GElem) (sign sign2 : Bool)
    (h : serialize pp r = .ok elems sign)
    (h2 : serialize pp r2 = .ok elems2 sign2)
    (hpl : r2.payload.length = r.payload.length) :
    elems.length = 5 + r.payload.length * 8 / pp.PAYLOAD_ELEMENT_BITSIZE +
      (if valueOverflows pp r then 1 else 0) + 1 ∧
    elems.length = elems2.length := by
  obtain ⟨he, -⟩ := serialize_ok_inv pp r hP2 elems sign h
  obtain ⟨he2, -⟩ := serialize_ok_inv pp r2 hP2 elems2 sign2 h2
  subst he he2
  have hCC : ∀ s : Record, (payloadChunks pp s).length
      = s.payload.length * 8 / pp.PAYLOAD_ELEMENT_BITSIZE := by
    intro s
    rw [payloadChunks, chunksOf_length _ _ (by omega), payloadBits,
      bytes_to_bits_length, Nat.mul_comm]
  have hcount : (payloadBits r2).length = (payloadBits r).length := by
    rw [payloadBits, payloadBits, bytes_to_bits_length, bytes_to_bits_length, hpl]
  have hovEq : valueOverflows pp r2 = valueOverflows pp r := by
    rw [valueOverflows, valueOverflows, leftoverBits, leftoverBits,
      chunkRest_length _ _ (by omega), chunkRest_length _ _ (by omega),
      loopHighs_length, loopHighs_length, payloadChunks, payloadChunks,
      chunksOf_length _ _ (by omega), chunksOf_length _ _ (by omega), hcount]
  refine ⟨by rw [serializeElems_length, hCC r], ?_⟩
  rw [serializeElems_length, serializeElems_length, hCC r, hCC r2, hpl, hovEq]

/-- C2 counterexample: with `PAYLOAD_ELEMENT_BITSIZE = 3` and an 8-bit
(1-byte) payload, the accepted output has 9 elements, while the claimed
ceiling formula `5 + ceil(8/3) + 1 + 1` gives 10. -/
theorem claim2_length_ceiling_counterexample :
    serialize toyParams toyRecord
      = .ok (serializeElems toyParams toyRecord) (tailHigh toyParams toyRecord) ∧
    valueOverflows toyParams toyRecord = true ∧
    (serializeElems toyParams toyRecord).length = 9 ∧
    toyRecord.payload.length * 8 = 8 ∧
    5 + (toyRecord.payload.length * 8 + toyParams.PAYLOAD_ELEMENT_BITSIZE - 1)
        / toyParams.PAYLOAD_ELEMENT_BITSIZE + 1 + 1 = 10 ∧
    (9 : Nat) ≠ 10 := by
  decide

/-- C2 witness at the concrete toy configuration. -/
theorem claim2_length_floor_witness :
    2 ≤ toyParams.PAYLOAD_ELEMENT_BITSIZE ∧
    serialize toyParams toyRecord
      = .ok (serializeElems toyParams toyRecord) (tailHigh toyParams toyRecord) ∧
    ((serializeElems toyParams toyRecord).length
        = 5 + toyRecord.payload.length * 8 / toyParams.PAYLOAD_ELEMENT_BITSIZE +
          (if valueOverflows toyParams toyRecord then 1 else 0) + 1 ∧
     (serializeElems toyParams toyRecord).length
        = (serializeElems toyParams toyRecord).length) :=
  ⟨by decide, by decide,
   claim2_length_floor toyParams toyRecord toyRecord (by decide)
     (serializeElems toyParams toyRecord) (serializeElems toyParams toyRecord)
     (tailHigh toyParams toyRecord) (tailHigh toyParams toyRecord)
     (by decide) (by decide) rfl⟩

/-- C3: deserializing any sequence of fewer than 6 group elements fails
with an error rather than returning a decoded record; in particular a
length-4 sequence whose element reads would succeed fails with the
`structural` error (the Rust index panic on the missing element). -/
theorem claim3_short_input (pp : Params) (elems : List GElem) (sign : Bool)
    (h : elems.length < 6) :
    (∃ e, deserialize pp elems sign = .error e) ∧
    (elems.length = 4 →
      1 ≤ (elems.getD 3 ⟨[], []⟩).encBytes.length →
      (readInnerField pp (elems.getD 0 ⟨[], []⟩).xCoord).isSome = true →
      (readScalarField pp (bits_to_bytes ((bytes_to_bits
          (elems.getD 1 ⟨[], []⟩).encBytes).take pp.DATA_ELEMENT_BITSIZE))).isSome
        = true →
      deserialize pp elems sign = .error .structural) := by
  constructor
  · simp only [deserialize]
    repeat' split <;> try exact ⟨_, rfl⟩
    all_goals omega
  · intro h4 hlen1 hnonce hrand
    obtain ⟨nv, hnv⟩ := Option.isSome_iff_exists.mp hnonce
    obtain ⟨rv, hrv⟩ := Option.isSome_iff_exists.mp hrand
    simp only [deserialize, decode_from_group]
    rw [h4, show (4 : Nat) - 1 = 3 by decide]
    rw [if_neg (show ¬((4 : Nat) = 0) by decide)]
    rw [if_neg (show ¬((bytes_to_bits (elems.getD 3 ⟨[], []⟩).encBytes).length < 4) from by
      rw [bytes_to_bits_length]
      omega)]
    rw [if_neg (show ¬((4 : Nat) < 2) by decide)]
    simp only [hnv]
    rw [if_neg (show ¬((4 : Nat) < 3) by decide)]
    simp only [hrv]
    rw [if_neg (show ¬((4 : Nat) < 4) by decide)]
    rw [if_pos (show (4 : Nat) < 5 by decide)]

/-- C3 witness: a concrete length-4 sequence. -/
theorem claim3_short_input_witness :
    ([⟨[0], [0]⟩, ⟨[0], [0]⟩, ⟨[0], [0]⟩, ⟨[0], [0]⟩] : List GElem).length < 6 ∧
    (∃ e, deserialize toyParams
        [⟨[0], [0]⟩, ⟨[0], [0]⟩, ⟨[0], [0]⟩, ⟨[0], [0]⟩] false = .error e) ∧
    deserialize toyParams
        [⟨[0], [0]⟩, ⟨[0], [0]⟩, ⟨[0], [0]⟩, ⟨[0], [0]⟩] false
      = .error .structural :=
  ⟨by decide,
   (claim3_short_input toyParams
      [⟨[0], [0]⟩, ⟨[0], [0]⟩, ⟨[0], [0]⟩, ⟨[0], [0]⟩] false (by decide)).1,
   (claim3_short_input toyParams
      [⟨[0], [0]⟩, ⟨[0], [0]⟩, ⟨[0], [0]⟩, ⟨[0], [0]⟩] false (by decide)).2
     (by decide) (by decide) (by decide) (by decide)⟩

/-- C4: for every record accepted by `serialize`, the final element's
byte string is the byte encoding of: one leading `true` guard bit, then
the recorded sign bits of all earlier elements in element order, then the
64 value bits, then the pending leftover payload bits; and the tail's own
sign bit is the auxiliary boolean output, not embedded in any element. -/
theorem claim4_tail_contents (pp : Params) (r : Record)
    (hP2 : 2 ≤ pp.PAYLOAD_ELEMENT_BITSIZE)
    (elems : List GElem) (sign : Bool) (h : serialize pp r = .ok elems sign) :
    (elems.getD (elems.length - 1) ⟨[], []⟩).encBytes
      = bits_to_bytes ([true] ++ allHighs pp r ++
          bytes_to_bits (natToBytes 8 r.value) ++ tailLeftover pp r) ∧
    (allHighs pp r).length = elems.length - 1 ∧
    sign = pp.sgn (bits_to_bytes ([true] ++ allHighs pp r ++
      bytes_to_bits (natToBytes 8 r.value) ++ tailLeftover pp r)) := by
  obtain ⟨he, hs⟩ := serialize_ok_inv pp r hP2 elems sign h
  subst he
  subst hs
  have hlast : (serializeElems pp r).getD ((serializeElems pp r).length - 1) ⟨[], []⟩
      = tailElem pp r := by
    rw [serializeElems]
    exact getD_last_append _ _ _
  exact ⟨by rw [hlast]; rfl, allHighs_length_eq pp r, rfl⟩

/-- C4 witness at the concrete toy configuration. -/
theorem claim4_tail_contents_witness :
    serialize toyParams toyRecord
      = .ok (serializeElems toyParams toyRecord) (tailHigh toyParams toyRecord) ∧
    ((serializeElems toyParams toyRecord).getD
        ((serializeElems toyParams toyRecord).length - 1) ⟨[], []⟩).encBytes
      = bits_to_bytes ([true] ++ allHighs toyParams toyRecord ++
          bytes_to_bits (natToBytes 8 toyRecord.value) ++
          tailLeftover toyParams toyRecord) :=
  ⟨by decide,
   (claim4_tail_contents toyParams toyRecord (by decide)
      (serializeElems toyParams toyRecord) (tailHigh toyParams toyRecord)
      (by decide)).1⟩

/-- C5: for every record accepted by `serialize` with output length `L`,
the decoded tail bit-string's positions `1` through `L-1` are exactly the
embedded sign bits of elements `0` through `L-2` (so exactly `L-1` are
embedded), and element 0's embedded sign bit is always `false`. -/
theorem claim5_sign_bits (pp : Params) (r : Record)
    (hP2 : 2 ≤ pp.PAYLOAD_ELEMENT_BITSIZE)
    (elems : List GElem) (sign : Bool) (h : serialize pp r = .ok elems sign) :
    ((bytes_to_bits (decode_from_group
          (elems.getD (elems.length - 1) ⟨[], []⟩) sign)).drop 1).take
        (elems.length - 1) = allHighs pp r ∧
    (allHighs pp r).length = elems.length - 1 ∧
    (allHighs pp r).getD 0 false = false := by
  obtain ⟨he, hs⟩ := serialize_ok_inv pp r hP2 elems sign h
  subst he
  subst hs
  have hlast : (serializeElems pp r).getD ((serializeElems pp r).length - 1) ⟨[], []⟩
      = tailElem pp r := by
    rw [serializeElems]
    exact getD_last_append _ _ _
  refine ⟨?_, allHighs_length_eq pp r, ?_⟩
  · rw [hlast, show decode_from_group (tailElem pp r) (tailHigh pp r)
        = bits_to_bytes (tailBits pp r) from rfl,
      bytes_to_bits_bits_to_bytes (tailBits pp r)]
    exact tail_signbits_slice pp r _
  · by_cases hov : valueOverflows pp r = true
    · rw [allHighs, if_pos hov]
      rfl
    · rw [allHighs, if_neg hov]
      rfl

/-- C5 witness at the concrete toy configuration. -/
theorem claim5_sign_bits_witness :
    serialize toyParams toyRecord
      = .ok (serializeElems toyParams toyRecord) (tailHigh toyParams toyRecord) ∧
    ((bytes_to_bits (decode_from_group
          ((serializeElems toyParams toyRecord).getD
            ((serializeElems toyParams toyRecord).length - 1) ⟨[], []⟩)
          (tailHigh toyParams toyRecord))).drop 1).take
        ((serializeElems toyParams toyRecord).length - 1)
      = allHighs toyParams toyRecord ∧
    (allHighs toyParams toyRecord).getD 0 false = false :=
  ⟨by decide,
   (claim5_sign_bits toyParams toyRecord (by decide)
      (serializeElems toyParams toyRecord) (tailHigh toyParams toyRecord)
      (by decide)).1,
   (claim5_sign_bits toyParams toyRecord (by decide)
      (serializeElems toyParams toyRecord) (tailHigh toyParams toyRecord)
      (by decide)).2.2⟩

/-- C6: for every record accepted by `serialize`, the flushed element is
appended iff leftover payload bits + sign bits recorded so far + 64
exceed `PAYLOAD_ELEMENT_BITSIZE`; and for a fixed payload bit-length the
output length depends only on this condition. -/
theorem claim6_flush_condition (pp : Params) (r : Record)
    (hP2 : 2 ≤ pp.PAYLOAD_ELEMENT_BITSIZE)
    (elems : List GElem) (sign : Bool) (h : serialize pp r = .ok elems sign) :
    (valueOverflows pp r = true ↔
      pp.PAYLOAD_ELEMENT_BITSIZE <
        r.payload.length * 8 % pp.PAYLOAD_ELEMENT_BITSIZE +
          (5 + r.payload.length * 8 / pp.PAYLOAD_ELEMENT_BITSIZE) + 64) ∧
    elems.length = 5 + r.payload.length * 8 / pp.PAYLOAD_ELEMENT_BITSIZE +
      (if valueOverflows pp r then 1 else 0) + 1 := by
  obtain ⟨he, -⟩ := serialize_ok_inv pp r hP2 elems sign h
  subst he
  have h1 : (leftoverBits pp r).length
      = r.payload.length * 8 % pp.PAYLOAD_ELEMENT_BITSIZE := by
    rw [leftoverBits, chunkRest_length _ _ (by omega), payloadBits,
      bytes_to_bits_length, Nat.mul_comm]
  have h2 : (loopHighs pp r).length
      = 5 + r.payload.length * 8 / pp.PAYLOAD_ELEMENT_BITSIZE := by
    rw [loopHighs_length, payloadChunks, chunksOf_length _ _ (by omega),
      payloadBits, bytes_to_bits_length, Nat.mul_comm]
  have h3 : (payloadChunks pp r).length
      = r.payload.length * 8 / pp.PAYLOAD_ELEMENT_BITSIZE := by
    rw [payloadChunks, chunksOf_length _ _ (by omega), payloadBits,
      bytes_to_bits_length, Nat.mul_comm]
  refine ⟨?_, by rw [serializeElems_length, h3]⟩
  rw [valueOverflows, h1, h2]
  exact ⟨of_decide_eq_true, decide_eq_true⟩

/-- C6 witness at the concrete toy configuration. -/
theorem claim6_flush_condition_witness :
    serialize toyParams toyRecord
      = .ok (serializeElems toyParams toyRecord) (tailHigh toyParams toyRecord) ∧
    ((valueOverflows toyParams toyRecord = true ↔
        toyParams.PAYLOAD_ELEMENT_BITSIZE <
          toyRecord.payload.length * 8 % toyParams.PAYLOAD_ELEMENT_BITSIZE +
            (5 + toyRecord.payload.length * 8 / toyParams.PAYLOAD_ELEMENT_BITSIZE)
            + 64) ∧
     (serializeElems toyParams toyRecord).length
        = 5 + toyRecord.payload.length * 8 / toyParams.PAYLOAD_ELEMENT_BITSIZE +
          (if valueOverflows toyParams toyRecord then 1 else 0) + 1) :=
  ⟨by decide,
   claim6_flush_condition toyParams toyRecord (by decide)
     (serializeElems toyParams toyRecord) (tailHigh toyParams toyRecord)
     (by decide)⟩

theorem serializeElems_getD_chunk (pp : Params) (r : Record) (k : Nat)
    (hk : k < (payloadChunks pp r).length) :
    (serializeElems pp r).getD (5 + k) ⟨[], []⟩
      = chunkElem pp ((payloadChunks pp r).getD k []) := by
  have hse : serializeElems pp r
      = ((fixedElems pp r ++ (payloadChunks pp r).map (chunkElem pp)) ++
          (if valueOverflows pp r then [flushElem pp r] else [])) ++
        [tailElem pp r] := rfl
  have h5 : (fixedElems pp r).length = 5 := rfl
  rw [hse]
  rw [List.getD_append _ _ _ _ (by
    rw [List.length_append, List.length_append, h5, List.length_map]
    omega)]
  rw [List.getD_append _ _ _ _ (by
    rw [List.length_append, h5, List.length_map]
    omega)]
  rw [List.getD_append_right (fixedElems pp r) _ _ _ (by rw [h5]; omega)]
  rw [h5, Nat.add_sub_cancel_left]
  rw [List.getD_eq_getElem _ _ (by rw [List.length_map]; exact hk),
    List.getElem_map, List.getD_eq_getElem _ _ hk]

theorem serializeElems_getD_flush (pp : Params) (r : Record)
    (hov : valueOverflows pp r = true) :
    (serializeElems pp r).getD (5 + (payloadChunks pp r).length) ⟨[], []⟩
      = flushElem pp r := by
  have hse : serializeElems pp r
      = ((fixedElems pp r ++ (payloadChunks pp r).map (chunkElem pp)) ++
          (if valueOverflows pp r then [flushElem pp r] else [])) ++
        [tailElem pp r] := rfl
  have hlen : (fixedElems pp r ++ (payloadChunks pp r).map (chunkElem pp)).length
      = 5 + (payloadChunks pp r).length := by
    rw [List.length_append, List.length_map,
      show (fixedElems pp r).length = 5 from rfl]
  rw [hse, if_pos hov]
  rw [List.getD_append _ _ _ _ (by
    simp only [List.length_append, List.length_cons, List.length_nil, hlen]
    omega)]
  rw [← hlen, list_getD_concat]

theorem guard_bit_at (c : List Bool) (P : Nat) (hc : c.length = P) (pad : List Bool) :
    ((c ++ [true]) ++ pad).getD P false = true := by
  have h1 : P < (c ++ [true]).length := by
    rw [List.length_append, hc]
    simp
  rw [List.getD_append _ _ _ _ h1,
    List.getD_append_right c [true] false P (le_of_eq hc), hc, Nat.sub_self]
  rfl

/-- C7 (amended): for every record accepted by `serialize`, every
full-payload-chunk element, decoded with its recovered sign bit, has bit
`PAYLOAD_ELEMENT_BITSIZE` equal to `true`; the flushed leftover element,
however, carries its guard bit at position equal to the leftover bit
count, not at `PAYLOAD_ELEMENT_BITSIZE`. -/
theorem claim7_guard_bits (pp : Params) (r : Record)
    (hP2 : 2 ≤ pp.PAYLOAD_ELEMENT_BITSIZE)
    (elems : List GElem) (sign : Bool) (h : serialize pp r = .ok elems sign) :
    (∀ k, k < (payloadChunks pp r).length →
      (bytes_to_bits (decode_from_group (elems.getD (5 + k) ⟨[], []⟩)
          ((allHighs pp r).getD (5 + k) false))).getD
        pp.PAYLOAD_ELEMENT_BITSIZE false = true) ∧
    (valueOverflows pp r = true →
      (bytes_to_bits (decode_from_group
          (elems.getD (5 + (payloadChunks pp r).length) ⟨[], []⟩)
          ((allHighs pp r).getD (5 + (payloadChunks pp r).length) false))).getD
        (leftoverBits pp r).length false = true) := by
  obtain ⟨he, -⟩ := serialize_ok_inv pp r hP2 elems sign h
  subst he
  constructor
  · intro k hk
    rw [serializeElems_getD_chunk pp r k hk]
    have hmem : (payloadChunks pp r).getD k [] ∈ payloadChunks pp r := by
      rw [List.getD_eq_getElem _ _ hk]
      exact List.getElem_mem _
    rw [show decode_from_group (chunkElem pp ((payloadChunks pp r).getD k []))
          ((allHighs pp r).getD (5 + k) false)
        = bits_to_bytes (((payloadChunks pp r).getD k []) ++ [true]) from rfl,
      bytes_to_bits_bits_to_bytes]
    exact guard_bit_at _ _
      (chunksOf_mem_length _ _ (by omega) _ hmem) _
  · intro hov
    rw [serializeElems_getD_flush pp r hov]
    rw [show decode_from_group (flushElem pp r)
          ((allHighs pp r).getD (5 + (payloadChunks pp r).length) false)
        = bits_to_bytes (leftoverBits pp r ++ [true]) from rfl,
      bytes_to_bits_bits_to_bytes]
    exact guard_bit_at _ _ rfl _

/-- C7 counterexample: in the toy configuration the flushed leftover
element (index 7) is a payload-chunk element in the claim's sense, yet
its decoded bit at position `PAYLOAD_ELEMENT_BITSIZE` is `false`: its
guard bit sits at the leftover length (2), not at position 3. -/
theorem claim7_guard_bits_counterexample :
    serialize toyParams toyRecord
      = .ok (serializeElems toyParams toyRecord) (tailHigh toyParams toyRecord) ∧
    valueOverflows toyParams toyRecord = true ∧
    5 + (payloadChunks toyParams toyRecord).length = 7 ∧
    (bytes_to_bits (decode_from_group
        ((serializeElems toyParams toyRecord).getD 7 ⟨[], []⟩)
        ((allHighs toyParams toyRecord).getD 7 false))).getD
      toyParams.PAYLOAD_ELEMENT_BITSIZE false = false ∧
    (leftoverBits toyParams toyRecord).length = 2 ∧
    (bytes_to_bits (decode_from_group
        ((serializeElems toyParams toyRecord).getD 7 ⟨[], []⟩)
        ((allHighs toyParams toyRecord).getD 7 false))).getD 2 false = true := by
  decide

/-- C7 witness at the concrete toy configuration. -/
theorem claim7_guard_bits_witness :
    serialize toyParams toyRecord
      = .ok (serializeElems toyParams toyRecord) (tailHigh toyParams toyRecord) ∧
    (0 : Nat) < (payloadChunks toyParams toyRecord).length ∧
    (bytes_to_bits (decode_from_group
        ((serializeElems toyParams toyRecord).getD (5 + 0) ⟨[], []⟩)
        ((allHighs toyParams toyRecord).getD (5 + 0) false))).getD
      toyParams.PAYLOAD_ELEMENT_BITSIZE false = true ∧
    valueOverflows toyParams toyRecord = true ∧
    (bytes_to_bits (decode_from_group
        ((serializeElems toyParams toyRecord).getD
          (5 + (payloadChunks toyParams toyRecord).length) ⟨[], []⟩)
        ((allHighs toyParams toyRecord).getD
          (5 + (payloadChunks toyParams toyRecord).length) false))).getD
      (leftoverBits toyParams toyRecord).length false = true :=
  ⟨by decide, by decide,
   (claim7_guard_bits toyParams toyRecord (by decide)
      (serializeElems toyParams toyRecord) (tailHigh toyParams toyRecord)
      (by decide)).1 0 (by decide),
   by decide,
   (claim7_guard_bits toyParams toyRecord (by decide)
      (serializeElems toyParams toyRecord) (tailHigh toyParams toyRecord)
      (by decide)).2 (by decide)⟩

/-- C8: for every record with empty payload (under the §3 invariants,
identifiers canonical, and a payload element size that fits the 5 fixed
sign bits plus the 64 value bits, as in the deployed 251), `serialize`
produces exactly the minimum 6 elements — no payload-chunk or flushed
element — and deserializing recovers the empty payload and the value. -/
theorem claim8_empty_payload (pp : Params) (r : Record)
    (hVp : ValidParams pp) (hWF : WFRecord pp r)
    (hEmpty : r.payload = [])
    (hFit : 5 + 64 ≤ pp.PAYLOAD_ELEMENT_BITSIZE)
    (hCurve : pp.onCurve (nonceBytes pp r) = true)
    (hbLen : r.birth_program_id.length = pp.outerBytes)
    (hbBytes : ∀ b ∈ r.birth_program_id, b < 256)
    (hbMod : birthValue pp r < pp.outerMod)
    (hdLen : r.death_program_id.length = pp.outerBytes)
    (hdBytes : ∀ b ∈ r.death_program_id, b < 256)
    (hdMod : deathValue pp r < pp.outerMod) :
    ∃ elems sign, serialize pp r = .ok elems sign ∧ elems.length = 6 ∧
      deserialize pp elems sign = .ok (DecodedRecord.ofRecord r) := by
  have hch : (payloadChunks pp r).length = 0 := by
    rw [payloadChunks, payloadBits, hEmpty]
    rfl
  have hleft : (leftoverBits pp r).length = 0 := by
    rw [leftoverBits, payloadBits, hEmpty]
    rfl
  have hov : valueOverflows pp r = false := by
    rw [valueOverflows]
    simp only [decide_eq_false_iff_not, not_lt]
    rw [hleft, loopHighs_length, hch]
    omega
  refine ⟨serializeElems pp r, tailHigh pp r,
    serialize_eq_ok pp r hVp.hP2 hCurve (le_of_eq hbLen.symm) hbMod
      (le_of_eq hdLen.symm) hdMod, ?_, ?_⟩
  · rw [serializeElems_length, hch, hov]
    simp
  · have hbid : bits_to_bytes (natToBits pp.OUTER_FIELD_BITSIZE (birthValue pp r))
        = r.birth_program_id :=
      canonical_id_bytes pp r.birth_program_id hVp.hOuterBytesLow hVp.hOuterBytesHigh
        hVp.hOuterMod hbLen hbBytes hbMod
    have hdid : bits_to_bytes (natToBits pp.OUTER_FIELD_BITSIZE (deathValue pp r))
        = r.death_program_id :=
      canonical_id_bytes pp r.death_program_id hVp.hOuterBytesLow hVp.hOuterBytesHigh
        hVp.hOuterMod hdLen hdBytes hdMod
    rw [deserialize_serializeElems pp r hVp hWF, hbid, hdid]
    rfl

set_option maxRecDepth 100000 in
/-- C8 witness at the concrete empty-payload configuration. -/
theorem claim8_empty_payload_witness :
    ValidParams emptyPayloadParams ∧
    WFRecord emptyPayloadParams emptyPayloadRecord ∧
    emptyPayloadRecord.payload = [] ∧
    5 + 64 ≤ emptyPayloadParams.PAYLOAD_ELEMENT_BITSIZE ∧
    ∃ elems sign, serialize emptyPayloadParams emptyPayloadRecord = .ok elems sign ∧
      elems.length = 6 ∧
      deserialize emptyPayloadParams elems sign
        = .ok (DecodedRecord.ofRecord emptyPayloadRecord) :=
  ⟨by constructor <;> decide, by constructor <;> decide, by decide, by decide,
   claim8_empty_payload emptyPayloadParams emptyPayloadRecord
     (by constructor <;> decide) (by constructor <;> decide) (by decide) (by decide)
     (by decide) (by decide) (by decide) (by decide) (by decide) (by decide)
     (by decide)⟩

/-- C9: `serialize` is not total over its result type for element 0: if
the nonce's bytes are not a valid curve point, `from_random_bytes`
followed by `unwrap` panics (no error value is returned); if they are,
the accepted output's element 0 is exactly the point produced by
`from_random_bytes` (the byte-to-group encoder is not involved). -/
theorem claim9_nonce_totality (pp : Params) (r : Record)
    (hP2 : 2 ≤ pp.PAYLOAD_ELEMENT_BITSIZE) :
    (pp.onCurve (nonceBytes pp r) = false → serialize pp r = .panicked) ∧
    (pp.onCurve (nonceBytes pp r) = true →
      from_random_bytes pp (nonceBytes pp r)
          = some ⟨nonceBytes pp r, nonceBytes pp r⟩ ∧
      ∀ elems sign, serialize pp r = .ok elems sign →
        elems.getD 0 ⟨[], []⟩ = ⟨nonceBytes pp r, nonceBytes pp r⟩) := by
  constructor
  · intro hc
    rw [serialize, show from_random_bytes pp
        (natToBytes pp.innerBytes r.serial_number_nonce) = none from by
      rw [from_random_bytes, if_neg (by rw [show natToBytes pp.innerBytes
        r.serial_number_nonce = nonceBytes pp r from rfl, hc]; simp)]]
  · intro hc
    refine ⟨by rw [from_random_bytes, if_pos hc], ?_⟩
    intro elems sign h
    obtain ⟨he, -⟩ := serialize_ok_inv pp r hP2 elems sign h
    subst he
    rfl

/-- C9 witness: panic on the off-curve configuration, element 0 on the
on-curve configuration. -/
theorem claim9_nonce_totality_witness :
    toyParamsOff.onCurve (nonceBytes toyParamsOff toyRecord) = false ∧
    serialize toyParamsOff toyRecord = .panicked ∧
    toyParams.onCurve (nonceBytes toyParams toyRecord) = true ∧
    (serializeElems toyParams toyRecord).getD 0 ⟨[], []⟩
      = ⟨nonceBytes toyParams toyRecord, nonceBytes toyParams toyRecord⟩ :=
  ⟨by decide,
   (claim9_nonce_totality toyParamsOff toyRecord (by decide)).1 (by decide),
   by decide,
   ((claim9_nonce_totality toyParams toyRecord (by decide)).2 (by decide)).2
     (serializeElems toyParams toyRecord) (tailHigh toyParams toyRecord)
     (by decide)⟩

/-- C10: `serialize` reads each identifier as an outer field element
(keeping only the low `OUTER_FIELD_BITSIZE` bits of its value), and
`deserialize` always rebuilds each identifier as `bits_to_bytes` of
exactly `OUTER_FIELD_BITSIZE` bits; hence the decoded identifiers have
the fixed byte length `⌈OUTER_FIELD_BITSIZE / 8⌉` and equal the
originals exactly when the originals are that canonical
representation. -/
theorem claim10_identifier_shape (pp : Params) (r : Record)
    (hVp : ValidParams pp) (hWF : WFRecord pp r)
    (hCurve : pp.onCurve (nonceBytes pp r) = true)
    (hbLen : pp.outerBytes ≤ r.birth_program_id.length)
    (hbMod : birthValue pp r < pp.outerMod)
    (hdLen : pp.outerBytes ≤ r.death_program_id.length)
    (hdMod : deathValue pp r < pp.outerMod) :
    ∃ elems sign dec, serialize pp r = .ok elems sign ∧
      deserialize pp elems sign = .ok dec ∧
      dec.birth_program_id
        = bits_to_bytes (natToBits pp.OUTER_FIELD_BITSIZE (birthValue pp r)) ∧
      dec.death_program_id
        = bits_to_bytes (natToBits pp.OUTER_FIELD_BITSIZE (deathValue pp r)) ∧
      dec.birth_program_id.length = (pp.OUTER_FIELD_BITSIZE + 7) / 8 ∧
      dec.death_program_id.length = (pp.OUTER_FIELD_BITSIZE + 7) / 8 ∧
      (dec.birth_program_id = r.birth_program_id ↔
        r.birth_program_id
          = bits_to_bytes (natToBits pp.OUTER_FIELD_BITSIZE (birthValue pp r))) ∧
      (dec.death_program_id = r.death_program_id ↔
        r.death_program_id
          = bits_to_bytes (natToBits pp.OUTER_FIELD_BITSIZE (deathValue pp r))) := by
  refine ⟨serializeElems pp r, tailHigh pp r, _,
    serialize_eq_ok pp r hVp.hP2 hCurve hbLen hbMod hdLen hdMod,
    deserialize_serializeElems pp r hVp hWF, rfl, rfl, ?_, ?_, ?_, ?_⟩
  · show (bits_to_bytes (natToBits pp.OUTER_FIELD_BITSIZE (birthValue pp r))).length = _
    rw [bits_to_bytes_length, natToBits_length]
  · show (bits_to_bytes (natToBits pp.OUTER_FIELD_BITSIZE (deathValue pp r))).length = _
    rw [bits_to_bytes_length, natToBits_length]
  · show bits_to_bytes (natToBits pp.OUTER_FIELD_BITSIZE (birthValue pp r))
        = r.birth_program_id ↔ _
    exact eq_comm
  · show bits_to_bytes (natToBits pp.OUTER_FIELD_BITSIZE (deathValue pp r))
        = r.death_program_id ↔ _
    exact eq_comm

/-- C10 witness at the concrete toy configuration. -/
theorem claim10_identifier_shape_witness :
    ValidParams toyParams ∧ WFRecord toyParams toyRecord ∧
    ∃ elems sign dec, serialize toyParams toyRecord = .ok elems sign ∧
      deserialize toyParams elems sign = .ok dec ∧
      dec.birth_program_id
        = bits_to_bytes (natToBits toyParams.OUTER_FIELD_BITSIZE
            (birthValue toyParams toyRecord)) ∧
      dec.death_program_id
        = bits_to_bytes (natToBits toyParams.OUTER_FIELD_BITSIZE
            (deathValue toyParams toyRecord)) ∧
      dec.birth_program_id.length = (toyParams.OUTER_FIELD_BITSIZE + 7) / 8 ∧
      dec.death_program_id.length = (toyParams.OUTER_FIELD_BITSIZE + 7) / 8 ∧
      (dec.birth_program_id = toyRecord.birth_program_id ↔
        toyRecord.birth_program_id
          = bits_to_bytes (natToBits toyParams.OUTER_FIELD_BITSIZE
              (birthValue toyParams toyRecord))) ∧
      (dec.death_program_id = toyRecord.death_program_id ↔
        toyRecord.death_program_id
          = bits_to_bytes (natToBits toyParams.OUTER_FIELD_BITSIZE
              (deathValue toyParams toyRecord))) :=
  ⟨by constructor <;> decide, by constructor <;> decide,
   claim10_identifier_shape toyParams toyRecord (by constructor <;> decide)
     (by constructor <;> decide) (by decide) (by decide) (by decide) (by decide)
     (by decide)⟩
